import Mathlib

/-!
Verification of the buf-list crate: a `BufList` is a queue of non-empty byte
chunks presenting one logical byte stream, and `Cursor` adds a seek/read
engine over a snapshot of the chunk boundaries.

Bytes are modelled as `Nat`, chunks as `List Nat`, and a `BufList` as
`List (List Nat)` (front of the queue first).  `u64`/`usize` arithmetic is
modelled on `Nat` with an explicit `% 2^64` at the one place the source
performs wrapping addition, and with explicit checks at the places the
source uses checked arithmetic.
-/

namespace BufListModel

/-- Modulus of the `u64` offset type. -/
def U64MOD : Nat := 2 ^ 64

/-- A `BufList` is an ordered queue of chunks (`VecDeque<Bytes>` in the
source).  Invariant maintained by the operations: no stored chunk is empty. -/
abbrev BufList := List (List Nat)

/-- `Buf::remaining` for `BufList`: the sum of the chunk lengths
(`self.bufs.iter().map(Buf::remaining).sum()`). -/
def remaining (bl : BufList) : Nat := (bl.map List.length).sum

/-- `BufList::num_bytes`, which just forwards to `remaining`. -/
def num_bytes_list (bl : BufList) : Nat := remaining bl

/-- The logical contiguous stream represented by a `BufList`: the
concatenation of its chunks. -/
def stream (bl : BufList) : List Nat := bl.flatten

/-- All stored chunks are non-empty (the `BufList` invariant stated on the
`bufs` field). -/
def ChunksWF (bl : BufList) : Prop := ∀ c ∈ bl, c ≠ []

instance : DecidablePred ChunksWF := fun bl =>
  inferInstanceAs (Decidable (∀ c ∈ bl, c ≠ []))

/-- `BufList::push_chunk`: materializes the input into a chunk, stores it
unless it is empty, and returns the chunk handle regardless. -/
def push_chunk (bl : BufList) (data : List Nat) : BufList × List Nat :=
  (if data.length > 0 then bl ++ [data] else bl, data)

/-- `Buf::advance` for `BufList`: consume `amt` bytes from the front,
truncating or popping front chunks.  `none` models the panic that the source
hits when `amt` exceeds the bytes available (indexing `self.bufs[0]` on an
empty queue). -/
def advance : BufList → Nat → Option BufList
  | bl, 0 => some bl
  | [], _ + 1 => none
  | f :: rest, amt + 1 =>
    if f.length > amt + 1 then some (f.drop (amt + 1) :: rest)
    else advance rest (amt + 1 - f.length)

/-- `Buf::copy_to_bytes` for `BufList`.  Fast path: the request fits in the
front chunk, which is split without copying (`first.copy_to_bytes(len)`),
popping the front chunk if it is fully consumed.  Slow path: assert
`len <= remaining` (`none` models the panic), copy the first `len` bytes of
the stream and advance by `len` (`buf.put(self.take(len))`).  The returned
pair is (new buffer state, bytes returned to the caller). -/
def copy_to_bytes (bl : BufList) (len : Nat) : Option (BufList × List Nat) :=
  match bl with
  | first :: rest =>
    if len ≤ first.length then
      some (if first.length - len = 0 then rest else first.drop len :: rest,
        first.take len)
    else
      if len ≤ remaining (first :: rest) then
        (advance (first :: rest) len).map (fun bl2 => (bl2, (stream (first :: rest)).take len))
      else none
  | [] =>
    if len ≤ remaining ([] : BufList) then
      (advance ([] : BufList) len).map (fun bl2 => (bl2, (stream ([] : BufList)).take len))
    else none

/-- The condition under which `copy_to_bytes` takes its zero-copy fast path:
the front chunk exists and wholly contains the requested range. -/
def copyFastPath (bl : BufList) (len : Nat) : Bool :=
  match bl with
  | first :: _ => len ≤ first.length
  | [] => false

end BufListModel

namespace BufListModel

/-- The `Offset` helper type from the source: the same as `Option` except
that `Eof` is ordered above every `Value`. -/
inductive Offset (T : Type) where
  | Value : T → Offset T
  | Eof : Offset T
deriving DecidableEq

/-- The derived strict order on `Offset Nat`: `Value a < Value b` iff
`a < b`, and `Value _ < Eof`. -/
def Offset.blt : Offset Nat → Offset Nat → Bool
  | .Value a, .Value b => a < b
  | .Value _, .Eof => true
  | .Eof, _ => false

/-- `From<Option<T>> for Offset<T>`. -/
def Offset.ofOption : Option Nat → Offset Nat
  | some v => .Value v
  | none => .Eof

/-- The derived `<=` on Rust's `Option<u64>`, used by `set_pos`'s `Less`
branch: `None` is below every `Some`. -/
def optionLe : Option Nat → Option Nat → Bool
  | none, _ => true
  | some _, none => false
  | some a, some b => a ≤ b

/-- Contract model of `slice::binary_search` from the Rust standard library:
on a sorted slice it returns `ok i` with `v[i] = target` when the target is
present, and otherwise `error j` where `j` is the insertion point, i.e. the
number of elements smaller than the target.  The cursor only ever searches
strictly sorted slices, on which this is exactly the documented behaviour. -/
def binarySearch (v : List Nat) (target : Nat) : Except Nat Nat :=
  if target ∈ v then .ok (v.indexOf target)
  else .error (v.countP (fun s => decide (s < target)))

/-- The state of a cursor (`CursorData`): the chunk start-index with the
total length as a trailing sentinel, the chunk number the cursor points to,
and the overall position in the stream. -/
structure CursorData where
  start_pos : List Nat
  chunk : Nat
  pos : Nat
deriving DecidableEq, Repr

/-- The start-index built by `CursorData::new`: `start_pos[i]` is the sum of
the lengths of the chunks before index `i`; the total length is pushed at
the end, so the length is `numChunks + 1`. -/
def startIndex (bl : BufList) : List Nat :=
  (List.range (bl.length + 1)).map (fun i => remaining (bl.take i))

/-- `CursorData::new`: initial chunk 0, position 0. -/
def CursorData.new (bl : BufList) : CursorData :=
  { start_pos := startIndex bl, chunk := 0, pos := 0 }

/-- `CursorData::num_bytes`: the last element of `start_pos` (which always
exists for a constructed cursor). -/
def CursorData.num_bytes (c : CursorData) : Nat := c.start_pos.getLastD 0

/-- `CursorData::set_pos`: the position-resolution algorithm.  The target is
compared with the current position; on equality nothing changes; otherwise
the chunk index either stays (target still inside the current chunk) or is
recomputed by a binary search of the start-index suffix beginning at
`chunk + 1` (target greater) or of the prefix ending at `chunk` (target
smaller). -/
def CursorData.set_pos (c : CursorData) (new_pos : Nat) : CursorData :=
  let chunk2 :=
    match compare new_pos c.pos with
    | .gt =>
      let next_start := Offset.ofOption c.start_pos[c.chunk + 1]?
      if Offset.blt (.Value new_pos) next_start then
        -- Within the same chunk.
        c.chunk
      else
        match binarySearch (c.start_pos.drop (c.chunk + 1)) new_pos with
        | .ok delta_minus_one => c.chunk + 1 + delta_minus_one
        | .error delta => c.chunk + delta
    | .eq => c.chunk
    | .lt =>
      if optionLe c.start_pos[c.chunk]? (some new_pos) then
        -- Within the same chunk.
        c.chunk
      else
        match binarySearch (c.start_pos.take c.chunk) new_pos with
        | .ok ch => ch
        | .error chunk_plus_1 => chunk_plus_1 - 1
  { c with chunk := chunk2, pos := new_pos }

/-- `std::io::SeekFrom`. -/
inductive SeekFrom where
  | fromStart : Nat → SeekFrom
  | fromEnd : Int → SeekFrom
  | current : Int → SeekFrom
deriving DecidableEq, Repr

/-- The two recoverable `io::ErrorKind`s the cursor produces. -/
inductive ErrorKind where
  | invalidInput
  | unexpectedEof
deriving DecidableEq, Repr

/-- The payload carried by `read_exact`'s unexpected-end-of-data error.  The
struct declaration lives in the crate's `errors` module, which is not among
the provided sources; its two fields are fixed by the construction site
`ReadExactError { remaining, buf_len }` in `read_exact_impl`. -/
structure ReadExactError where
  remaining : Nat
  buf_len : Nat
deriving DecidableEq, Repr

/-- The tail of `CursorData::seek_impl` shared by the `End` and `Current`
cases: `checked_add`/`checked_sub` of the signed delta on the `u64` base,
failing with `InvalidInput` when the result would be negative or ≥ 2^64. -/
def CursorData.seek_rel (c : CursorData) (base_pos : Nat) (off : Int) :
    CursorData × Except ErrorKind Nat :=
  let new_pos : Option Nat :=
    if 0 ≤ off then
      if base_pos + off.toNat < U64MOD then some (base_pos + off.toNat) else none
    else
      if off.natAbs ≤ base_pos then some (base_pos - off.natAbs) else none
  match new_pos with
  | some n => (c.set_pos n, .ok n)
  | none => (c, .error .invalidInput)

/-- `CursorData::seek_impl`: resolve the base (0 for `Start`, total length
for `End`, current position for `Current`), apply the delta with overflow
checking, and return the new position. -/
def CursorData.seek_impl (c : CursorData) (style : SeekFrom) :
    CursorData × Except ErrorKind Nat :=
  match style with
  | .fromStart n => (c.set_pos n, .ok n)
  | .fromEnd n => c.seek_rel c.num_bytes n
  | .current n => c.seek_rel c.pos n

/-- Modelled from the spec: `BufList::get_chunk`, the accessor the cursor
uses to fetch the chunk at a given index, is not among the provided sources
(only its caller in `cursor/mod.rs` is).  Per the data model a `BufList` is
an ordered sequence of chunks, so chunk number `i` is returned when it
exists. -/
def get_chunk (bl : BufList) (i : Nat) : Option (List Nat) := bl[i]?

/-- `CursorData::get_chunk_and_pos`: the current chunk together with the
position inside it, or `none` when the position is past the end. -/
def CursorData.get_chunk_and_pos (c : CursorData) (bl : BufList) :
    Option (List Nat × Nat) :=
  match get_chunk bl c.chunk with
  | some ch => some (ch, c.pos - c.start_pos.getD c.chunk 0)
  | none => none

/-- The loop of `CursorData::read_impl`.  Arguments after the buffer and the
start-index: fuel, chunk, pos, and the destination space still free.  Each
iteration of the source loop either stops or moves `chunk` one step forward,
so `numChunks + 1` rounds of fuel always suffice (`read_impl` passes exactly
that); the fuel only bounds the iteration count.  Returns the new chunk
index, the new position, and the bytes copied. -/
def readGo (bl : BufList) (sp : List Nat) : Nat → Nat → Nat → Nat → Nat × Nat × List Nat
  | 0, chunk, pos, _ => (chunk, pos, [])
  | _ + 1, chunk, pos, 0 => (chunk, pos, [])
  | fuel + 1, chunk, pos, space + 1 =>
    match get_chunk bl chunk with
    | none => (chunk, pos, [])
    | some ch =>
      let chunk_pos := pos - sp.getD chunk 0
      let n := min (ch.length - chunk_pos) (space + 1)
      let copied := (ch.drop chunk_pos).take n
      if n = ch.length - chunk_pos then
        let r := readGo bl sp fuel (chunk + 1) (pos + n) (space + 1 - n)
        (r.1, r.2.1, copied ++ r.2.2)
      else
        (chunk, pos + n, copied)

/-- `CursorData::read_impl`: copy forward from the current position into a
destination of length `bufLen`, crossing chunk boundaries as needed.
Returns the new cursor state and the bytes copied (the count the source
returns is their length). -/
def CursorData.read_impl (c : CursorData) (bl : BufList) (bufLen : Nat) :
    CursorData × List Nat :=
  let r := readGo bl c.start_pos (bl.length + 1) c.chunk c.pos bufLen
  ({ c with chunk := r.1, pos := r.2.1 }, r.2.2)

/-- `CursorData::read_vectored_impl`: `read` into each destination slot in
order, stopping as soon as a slot is only partially filled.  Returns the new
state, the total count, and the bytes copied into each slot processed. -/
def CursorData.read_vectored_impl (c : CursorData) (bl : BufList) :
    List Nat → CursorData × Nat × List (List Nat)
  | [] => (c, 0, [])
  | bufLen :: rest =>
    let r := c.read_impl bl bufLen
    if r.2.length < bufLen then (r.1, r.2.length, [r.2])
    else
      let rr := r.1.read_vectored_impl bl rest
      (rr.1, r.2.length + rr.2.1, r.2 :: rr.2.2)

/-- `CursorData::read_exact_impl`: fail with `UnexpectedEof` carrying
`(remaining, buf_len)` when fewer than `buf_len` bytes remain before the
total length (`saturating_sub` is `Nat` subtraction); otherwise delegate to
`read_impl`. -/
def CursorData.read_exact_impl (c : CursorData) (bl : BufList) (bufLen : Nat) :
    CursorData × Except (ErrorKind × ReadExactError) (List Nat) :=
  let rem := c.num_bytes - c.pos
  if rem < bufLen then
    (c, .error (.unexpectedEof, ⟨rem, bufLen⟩))
  else
    let r := c.read_impl bl bufLen
    (r.1, .ok r.2)

/-- `CursorData::fill_buf_impl`: the rest of the current chunk from the
current position, or the empty slice past the end. -/
def CursorData.fill_buf_impl (c : CursorData) (bl : BufList) : List Nat :=
  match c.get_chunk_and_pos bl with
  | some (ch, chunk_pos) => ch.drop chunk_pos
  | none => []

/-- `CursorData::consume_impl`: `set_pos(self.pos + amt as u64)`.  This is
the one unchecked `u64` addition in the cursor; its release-mode wrapping is
modelled by the explicit `% 2^64`. -/
def CursorData.consume_impl (c : CursorData) (amt : Nat) : CursorData :=
  c.set_pos ((c.pos + amt) % U64MOD)

end BufListModel

namespace BufListModel

/-- Modelled from the spec: the reference cursor of the equivalence property
is `std::io::Cursor` over the single contiguous concatenation of the same
bytes.  Its state is a single `u64` position over a fixed byte slice. -/
structure RefCursor where
  rpos : Nat
deriving DecidableEq, Repr

/-- Modelled from the spec: the reference cursor's remaining slice, i.e. the
bytes from `min(pos, len)` on. -/
def RefCursor.restOf (r : RefCursor) (bytes : List Nat) : List Nat :=
  bytes.drop r.rpos

/-- Modelled from the spec: the reference cursor's `read`: copy
`min(bufLen, len - pos)` bytes from the current position and advance by the
count copied. -/
def RefCursor.read (r : RefCursor) (bytes : List Nat) (bufLen : Nat) :
    RefCursor × List Nat :=
  let copied := (r.restOf bytes).take bufLen
  (⟨r.rpos + copied.length⟩, copied)

/-- Modelled from the spec: the reference cursor's `read_vectored`: `read`
into each slot in order, stopping at the first partially-filled slot. -/
def RefCursor.read_vectored (r : RefCursor) (bytes : List Nat) :
    List Nat → RefCursor × Nat × List (List Nat)
  | [] => (r, 0, [])
  | bufLen :: rest =>
    let a := r.read bytes bufLen
    if a.2.length < bufLen then (a.1, a.2.length, [a.2])
    else
      let rr := a.1.read_vectored bytes rest
      (rr.1, a.2.length + rr.2.1, a.2 :: rr.2.2)

/-- Modelled from the spec: the reference cursor's `read_exact`: fail with
`UnexpectedEof` — copying nothing and not moving — when fewer than `bufLen`
bytes remain before the end; otherwise read exactly `bufLen` bytes. -/
def RefCursor.read_exact (r : RefCursor) (bytes : List Nat) (bufLen : Nat) :
    RefCursor × Except ErrorKind (List Nat) :=
  if bytes.length - r.rpos < bufLen then (r, .error .unexpectedEof)
  else
    let a := r.read bytes bufLen
    (a.1, .ok a.2)

/-- Modelled from the spec: checked base-plus-delta for the reference
cursor's `End`/`Current` seeks. -/
def RefCursor.seekRel (r : RefCursor) (base : Nat) (off : Int) :
    RefCursor × Except ErrorKind Nat :=
  if 0 ≤ off then
    if base + off.toNat < U64MOD then (⟨base + off.toNat⟩, .ok (base + off.toNat))
    else (r, .error .invalidInput)
  else
    if off.natAbs ≤ base then (⟨base - off.natAbs⟩, .ok (base - off.natAbs))
    else (r, .error .invalidInput)

/-- Modelled from the spec: the reference cursor's `seek`, which is the very
checked-arithmetic algorithm the source adapted from `std`'s cursor. -/
def RefCursor.seek (r : RefCursor) (bytes : List Nat) (style : SeekFrom) :
    RefCursor × Except ErrorKind Nat :=
  match style with
  | .fromStart n => (⟨n⟩, .ok n)
  | .fromEnd off =>
    RefCursor.seekRel r bytes.length off
  | .current off =>
    RefCursor.seekRel r r.rpos off

/-- Modelled from the spec: the reference cursor's `consume`, the same
wrapping `u64` addition as the segmented cursor's. -/
def RefCursor.consume (r : RefCursor) (amt : Nat) : RefCursor :=
  ⟨(r.rpos + amt) % U64MOD⟩

/-- One cursor operation of the equivalence property. -/
inductive Op where
  | setPosition : Nat → Op
  | seek : SeekFrom → Op
  | read : Nat → Op
  | readVectored : List Nat → Op
  | readExact : Nat → Op
  | fillBufEmpty : Op
  | consume : Nat → Op
deriving DecidableEq, Repr

deriving instance DecidableEq for Except

/-- What one operation lets the caller observe: returned counts, bytes, and
error kinds. -/
inductive Obs where
  | unit : Obs
  | seekRes : Except ErrorKind Nat → Obs
  | readRes : Nat → List Nat → Obs
  | readVecRes : Nat → List (List Nat) → Obs
  | readExactRes : Except ErrorKind (List Nat) → Obs
  | emptyRes : Bool → Obs
deriving DecidableEq, Repr

/-- Apply one operation to the segmented cursor. -/
def applyOp (bl : BufList) (c : CursorData) : Op → CursorData × Obs
  | .setPosition p => (c.set_pos p, .unit)
  | .seek style =>
    let r := c.seek_impl style
    (r.1, .seekRes r.2)
  | .read bufLen =>
    let r := c.read_impl bl bufLen
    (r.1, .readRes r.2.length r.2)
  | .readVectored lens =>
    let r := c.read_vectored_impl bl lens
    (r.1, .readVecRes r.2.1 r.2.2)
  | .readExact bufLen =>
    let r := c.read_exact_impl bl bufLen
    (r.1, .readExactRes (r.2.map id |>.mapError Prod.fst))
  | .fillBufEmpty => (c, .emptyRes (c.fill_buf_impl bl).isEmpty)
  | .consume amt => (c.consume_impl amt, .unit)

/-- Modelled from the spec: apply one operation to the reference cursor. -/
def refApplyOp (bytes : List Nat) (r : RefCursor) : Op → RefCursor × Obs
  | .setPosition p => (⟨p⟩, .unit)
  | .seek style =>
    let a := r.seek bytes style
    (a.1, .seekRes a.2)
  | .read bufLen =>
    let a := r.read bytes bufLen
    (a.1, .readRes a.2.length a.2)
  | .readVectored lens =>
    let a := r.read_vectored bytes lens
    (a.1, .readVecRes a.2.1 a.2.2)
  | .readExact bufLen =>
    let a := r.read_exact bytes bufLen
    (a.1, .readExactRes a.2)
  | .fillBufEmpty => (r, .emptyRes (r.restOf bytes).isEmpty)
  | .consume amt => (r.consume amt, .unit)

/-- Run a sequence of operations on the segmented cursor, recording after
each operation the observed position and the operation's observable result. -/
def runBL (bl : BufList) (c : CursorData) : List Op → List (Nat × Obs)
  | [] => []
  | op :: ops =>
    let r := applyOp bl c op
    (r.1.pos, r.2) :: runBL bl r.1 ops

/-- Modelled from the spec: run a sequence of operations on the reference
cursor, recording the same observations. -/
def runRef (bytes : List Nat) (r : RefCursor) : List Op → List (Nat × Obs)
  | [] => []
  | op :: ops =>
    let a := refApplyOp bytes r op
    (a.1.rpos, a.2) :: runRef bytes a.1 ops

/-- Apply a sequence of operations to the segmented cursor, keeping only the
final state. -/
def applyOps (bl : BufList) (c : CursorData) : List Op → CursorData
  | [] => c
  | op :: ops => applyOps bl (applyOp bl c op).1 ops

end BufListModel

namespace BufListModel

/-- The canonical chunk number for a position: one less than the number of
start-index entries that are ≤ the position.  For a well-formed start-index
this is the unique `c` with `start[c] ≤ p < start[c+1]`, or the sentinel
index when `p` is at or past the total length. -/
def resolveChunk (sp : List Nat) (p : Nat) : Nat :=
  sp.countP (fun s => decide (s ≤ p)) - 1

/-- Well-formedness of a start-index: strictly sorted and starting at 0. -/
def SpWF (sp : List Nat) : Prop :=
  sp.Pairwise (· < ·) ∧ sp.head? = some 0

/-- The cursor-state invariant, phrased canonically: the start-index is the
given one and the chunk number is the resolved one for the position. -/
def InvC (sp : List Nat) (c : CursorData) : Prop :=
  c.start_pos = sp ∧ c.chunk = resolveChunk sp c.pos

/-- A predicate on offsets that is downward closed (such as `· ≤ p` and
`· < p`). -/
def DownClosed (q : Nat → Bool) : Prop :=
  ∀ x y, x ≤ y → q y = true → q x = true

lemma downClosed_le (p : Nat) : DownClosed (fun s => decide (s ≤ p)) := by
  intro x y hxy h
  simp only [decide_eq_true_eq] at h ⊢
  omega

lemma downClosed_lt (p : Nat) : DownClosed (fun s => decide (s < p)) := by
  intro x y hxy h
  simp only [decide_eq_true_eq] at h ⊢
  omega

lemma countP_eq_zero_of_head (q : Nat → Bool) (hq : DownClosed q) (a : Nat)
    (t : List Nat) (ht : ∀ x ∈ t, a < x) (ha : q a = false) :
    t.countP q = 0 := by
  rw [List.countP_eq_zero]
  intro x hx h
  have : q a = true := hq a x (Nat.le_of_lt (ht x hx)) h
  simp [ha] at this

/-- For a strictly sorted list, the elements satisfying a downward-closed
predicate are exactly the first `countP` ones. -/
lemma countP_front_iff (q : Nat → Bool) (hq : DownClosed q) :
    ∀ (sp : List Nat), sp.Pairwise (· < ·) →
      ∀ i (hi : i < sp.length), (q sp[i] = true ↔ i < sp.countP q) := by
  intro sp
  induction sp with
  | nil => intro _ i hi; simp at hi
  | cons a t ih =>
    intro hs i hi
    rw [List.pairwise_cons] at hs
    obtain ⟨hat, hst⟩ := hs
    rcases i with _ | i
    · simp only [List.getElem_cons_zero, List.countP_cons]
      cases ha : q a with
      | true => simp
      | false =>
        rw [countP_eq_zero_of_head q hq a t hat ha]
        simp [ha]
    · simp only [List.getElem_cons_succ, List.countP_cons]
      have hi' : i < t.length := by simpa using hi
      rw [ih hst i hi']
      cases ha : q a with
      | true => simp
      | false =>
        rw [countP_eq_zero_of_head q hq a t hat ha]
        simp [ha]

/-- On a strictly sorted list, the index of a present element is the number
of smaller elements (which is what `binary_search` returns in the `Ok`
case). -/
lemma indexOf_eq_countP_lt :
    ∀ (sp : List Nat), sp.Pairwise (· < ·) → ∀ p, p ∈ sp →
      sp.indexOf p = sp.countP (fun s => decide (s < p)) := by
  intro sp
  induction sp with
  | nil => intro _ p hp; simp at hp
  | cons a t ih =>
    intro hs p hp
    rw [List.pairwise_cons] at hs
    obtain ⟨hat, hst⟩ := hs
    by_cases hap : a = p
    · subst hap
      rw [List.indexOf_cons_self]
      have h1 : (decide (a < a)) = false := by simp
      rw [List.countP_cons]
      rw [countP_eq_zero_of_head (fun s => decide (s < a)) (downClosed_lt a) a t hat h1]
      simp
    · have hpt : p ∈ t := by
        rcases List.mem_cons.mp hp with h | h
        · exact absurd h.symm hap
        · exact h
      have hap' : a < p := hat p hpt
      rw [List.indexOf_cons_ne _ (by simpa using hap), List.countP_cons]
      rw [ih hst p hpt]
      simp [hap']

/-- For a strictly sorted list containing `p`, the count of elements `≤ p`
is one more than the count of elements `< p`. -/
lemma countP_le_eq_countP_lt_add_one :
    ∀ (sp : List Nat), sp.Pairwise (· < ·) → ∀ p, p ∈ sp →
      sp.countP (fun s => decide (s ≤ p)) =
        sp.countP (fun s => decide (s < p)) + 1 := by
  intro sp
  induction sp with
  | nil => intro _ p hp; simp at hp
  | cons a t ih =>
    intro hs p hp
    rw [List.pairwise_cons] at hs
    obtain ⟨hat, hst⟩ := hs
    by_cases hap : a = p
    · subst hap
      rw [List.countP_cons, List.countP_cons]
      have h1 : (decide (a < a)) = false := by simp
      rw [countP_eq_zero_of_head (fun s => decide (s < a)) (downClosed_lt a) a t hat h1]
      have h2 : t.countP (fun s => decide (s ≤ a)) = 0 := by
        rw [List.countP_eq_zero]
        intro x hx h
        have := hat x hx
        simp only [decide_eq_true_eq] at h
        omega
      rw [h2]
      simp
    · have hpt : p ∈ t := by
        rcases List.mem_cons.mp hp with h | h
        · exact absurd h.symm hap
        · exact h
      have hap' : a < p := hat p hpt
      rw [List.countP_cons, List.countP_cons, ih hst p hpt]
      simp [hap', Nat.le_of_lt hap']

/-- For any list not containing `p`, elements `≤ p` are exactly the
elements `< p`. -/
lemma countP_le_eq_countP_lt (sp : List Nat) (p : Nat) (hp : p ∉ sp) :
    sp.countP (fun s => decide (s ≤ p)) =
      sp.countP (fun s => decide (s < p)) := by
  induction sp with
  | nil => rfl
  | cons a t ih =>
    have hat : a ≠ p := by
      intro h; exact hp (by simp [h])
    have hpt : p ∉ t := fun h => hp (List.mem_cons_of_mem a h)
    rw [List.countP_cons, List.countP_cons, ih hpt]
    have : (decide (a ≤ p)) = (decide (a < p)) := by
      cases Nat.lt_or_ge a p with
      | inl h => simp [h, Nat.le_of_lt h]
      | inr h =>
        have h2 : ¬a ≤ p := by omega
        have h3 : ¬a < p := by omega
        simp [h2, h3]
    rw [this]

end BufListModel

namespace BufListModel

/-- Abbreviation used throughout: the number of start offsets ≤ `p`. -/
def cntLe (sp : List Nat) (p : Nat) : Nat :=
  sp.countP (fun s => decide (s ≤ p))

/-- Abbreviation used throughout: the number of start offsets < `p`. -/
def cntLt (sp : List Nat) (p : Nat) : Nat :=
  sp.countP (fun s => decide (s < p))

lemma spwf_zero (sp : List Nat) (h0 : sp.head? = some 0) :
    ∃ h : 0 < sp.length, sp[0] = 0 := by
  cases sp with
  | nil => simp at h0
  | cons a t =>
    simp only [List.head?_cons, Option.some.injEq] at h0
    exact ⟨by simp, by simp [h0]⟩

lemma cntLe_pos (sp : List Nat) (hwf : SpWF sp) (p : Nat) : 1 ≤ cntLe sp p := by
  obtain ⟨hlen, hz⟩ := spwf_zero sp hwf.2
  have hmem : (0 : Nat) ∈ sp := by
    rw [← hz]; exact List.getElem_mem hlen
  unfold cntLe
  have h : 0 < List.countP (fun s => decide (s ≤ p)) sp :=
    List.countP_pos_iff.mpr ⟨0, hmem, by simpa using Nat.zero_le p⟩
  omega

lemma cntLe_le_length (sp : List Nat) (p : Nat) : cntLe sp p ≤ sp.length :=
  List.countP_le_length _

lemma resolveChunk_lt_length (sp : List Nat) (hwf : SpWF sp) (p : Nat) :
    resolveChunk sp p < sp.length := by
  have h1 := cntLe_pos sp hwf p
  have h2 := cntLe_le_length sp p
  have hdef : resolveChunk sp p = cntLe sp p - 1 := rfl
  omega

/-- Membership form of `countP_front_iff` for `· ≤ p`. -/
lemma getElem_le_iff (sp : List Nat) (hs : sp.Pairwise (· < ·)) (p : Nat)
    (i : Nat) (hi : i < sp.length) : sp[i] ≤ p ↔ i < cntLe sp p := by
  have := countP_front_iff (fun s => decide (s ≤ p)) (downClosed_le p) sp hs i hi
  simpa using this

/-- Membership form of `countP_front_iff` for `· < p`. -/
lemma getElem_lt_iff (sp : List Nat) (hs : sp.Pairwise (· < ·)) (p : Nat)
    (i : Nat) (hi : i < sp.length) : sp[i] < p ↔ i < cntLt sp p := by
  have := countP_front_iff (fun s => decide (s < p)) (downClosed_lt p) sp hs i hi
  simpa using this

/-- The resolved chunk is the unique index whose start offset brackets the
position. -/
lemma resolveChunk_eq_of_bracket (sp : List Nat) (hwf : SpWF sp) (p r : Nat)
    (hr : r < sp.length) (h1 : sp[r] ≤ p)
    (h2 : ∀ hr1 : r + 1 < sp.length, p < sp[r + 1]) :
    resolveChunk sp p = r := by
  have hge : r < cntLe sp p := (getElem_le_iff sp hwf.1 p r hr).mp h1
  have hle : cntLe sp p ≤ r + 1 := by
    by_cases hr1 : r + 1 < sp.length
    · have := h2 hr1
      have h3 : ¬(r + 1 < cntLe sp p) := by
        intro hcon
        have := (getElem_le_iff sp hwf.1 p (r + 1) hr1).mpr hcon
        omega
      omega
    · have := cntLe_le_length sp p
      omega
  have hdef : resolveChunk sp p = cntLe sp p - 1 := rfl
  omega

/-- Bracket property of the resolved chunk: its start offset is ≤ the
position, and the next start offset (when there is one) is beyond it. -/
lemma resolveChunk_bracket (sp : List Nat) (hwf : SpWF sp) (p : Nat) :
    ∃ hr : resolveChunk sp p < sp.length,
      sp[resolveChunk sp p] ≤ p ∧
        ∀ hr1 : resolveChunk sp p + 1 < sp.length, p < sp[resolveChunk sp p + 1] := by
  have hr := resolveChunk_lt_length sp hwf p
  have hcnt := cntLe_pos sp hwf p
  have hdef : resolveChunk sp p = cntLe sp p - 1 := rfl
  have hrc : resolveChunk sp p < cntLe sp p := by omega
  refine ⟨hr, (getElem_le_iff sp hwf.1 p _ hr).mpr hrc, ?_⟩
  intro hr1
  by_contra hcon
  push_neg at hcon
  have := (getElem_le_iff sp hwf.1 p _ hr1).mp hcon
  omega

/-- With the position at or past the total length, the resolved chunk is the
sentinel index (the last start-index entry). -/
lemma resolveChunk_eq_last_iff (sp : List Nat) (hwf : SpWF sp) (p : Nat)
    (hlen : 0 < sp.length) :
    resolveChunk sp p = sp.length - 1 ↔ sp[sp.length - 1] ≤ p := by
  have hdef : resolveChunk sp p = cntLe sp p - 1 := rfl
  have h1 := cntLe_pos sp hwf p
  have h2 := cntLe_le_length sp p
  constructor
  · intro h
    have h3 : sp.length - 1 < cntLe sp p := by omega
    exact (getElem_le_iff sp hwf.1 p _ (by omega)).mpr h3
  · intro h
    have h4 := (getElem_le_iff sp hwf.1 p (sp.length - 1) (by omega)).mp h
    omega

end BufListModel

namespace BufListModel

lemma countP_lt_take_full (sp : List Nat) (p ch : Nat) (hch1 : ch + 1 ≤ sp.length)
    (hbelow : ∀ i (hi : i < sp.length), i < ch + 1 → sp[i] < p) :
    (sp.take (ch + 1)).countP (fun s => decide (s < p)) = ch + 1 := by
  have hall : ∀ x ∈ sp.take (ch + 1), (fun s => decide (s < p)) x = true := by
    intro x hx
    obtain ⟨i, hi, hxi⟩ := List.mem_iff_getElem.mp hx
    have hi2 : i < ch + 1 ∧ i < sp.length := by
      rw [List.length_take] at hi
      omega
    rw [List.getElem_take] at hxi
    simp only [decide_eq_true_eq]
    rw [← hxi]
    exact hbelow i hi2.2 hi2.1
  rw [List.countP_eq_length.mpr hall, List.length_take]
  omega

lemma countP_lt_drop_zero (sp : List Nat) (p ch : Nat)
    (habove : ∀ i (hi : i < sp.length), ch ≤ i → p < sp[i]) :
    (sp.drop ch).countP (fun s => decide (s < p)) = 0 := by
  rw [List.countP_eq_zero]
  intro x hx
  obtain ⟨j, hj, hxj⟩ := List.mem_iff_getElem.mp hx
  have hj2 : ch + j < sp.length := by
    rw [List.length_drop] at hj
    omega
  rw [List.getElem_drop] at hxj
  simp only [decide_eq_true_eq]
  rw [← hxj]
  have := habove (ch + j) hj2 (Nat.le_add_right ch j)
  omega

lemma not_mem_of_below_above (sp : List Nat) (p ch : Nat)
    (hbelow : ∀ i (hi : i < sp.length), i < ch → sp[i] < p)
    (habove : ∀ i (hi : i < sp.length), ch ≤ i → p ≠ sp[i]) :
    p ∉ sp := by
  intro hmem
  obtain ⟨i, hi, hxi⟩ := List.mem_iff_getElem.mp hmem
  by_cases hic : i < ch
  · have := hbelow i hi hic
    omega
  · exact habove i hi (by omega) hxi.symm

/-- `Ok` result of the suffix binary search in `set_pos`'s `Greater` branch:
the selected chunk is the canonical one. -/
lemma resolveChunk_drop_ok (sp : List Nat) (hwf : SpWF sp) (p ch idx : Nat)
    (hch1 : ch + 1 ≤ sp.length)
    (hbelow : ∀ i (hi : i < sp.length), i < ch + 1 → sp[i] < p)
    (hbs : binarySearch (sp.drop (ch + 1)) p = .ok idx) :
    resolveChunk sp p = ch + 1 + idx := by
  obtain ⟨hs, h0⟩ := hwf
  unfold binarySearch at hbs
  by_cases hpm : p ∈ sp.drop (ch + 1)
  · rw [if_pos hpm] at hbs
    have hidx : idx = (sp.drop (ch + 1)).indexOf p := by
      cases hbs
      rfl
    have hdropPW : (sp.drop (ch + 1)).Pairwise (· < ·) :=
      hs.sublist (List.drop_sublist (ch + 1) sp)
    have hio := indexOf_eq_countP_lt _ hdropPW p hpm
    have htake := countP_lt_take_full sp p ch hch1 hbelow
    have happ : sp.countP (fun s => decide (s < p)) =
        (ch + 1) + (sp.drop (ch + 1)).countP (fun s => decide (s < p)) := by
      conv_lhs => rw [← List.take_append_drop (ch + 1) sp]
      rw [List.countP_append, htake]
    have hmem_sp : p ∈ sp := List.drop_subset _ _ hpm
    have hle_eq := countP_le_eq_countP_lt_add_one sp hs p hmem_sp
    have hdef : resolveChunk sp p = cntLe sp p - 1 := rfl
    have hcle : cntLe sp p = sp.countP (fun s => decide (s ≤ p)) := rfl
    rw [hidx, hio]
    omega
  · rw [if_neg hpm] at hbs
    cases hbs

/-- `Err` result of the suffix binary search in `set_pos`'s `Greater`
branch: adding the insertion point to the current chunk gives the canonical
chunk. -/
lemma resolveChunk_drop_err (sp : List Nat) (hwf : SpWF sp) (p ch d : Nat)
    (hch1 : ch + 1 ≤ sp.length)
    (hbelow : ∀ i (hi : i < sp.length), i < ch + 1 → sp[i] < p)
    (hbs : binarySearch (sp.drop (ch + 1)) p = .error d) :
    resolveChunk sp p = ch + d := by
  obtain ⟨hs, h0⟩ := hwf
  unfold binarySearch at hbs
  by_cases hpm : p ∈ sp.drop (ch + 1)
  · rw [if_pos hpm] at hbs
    cases hbs
  · rw [if_neg hpm] at hbs
    have hd : d = (sp.drop (ch + 1)).countP (fun s => decide (s < p)) := by
      cases hbs
      rfl
    have hnot : p ∉ sp := by
      apply not_mem_of_below_above sp p (ch + 1) hbelow
      intro i hi hic heq
      apply hpm
      have hj : i - (ch + 1) < (sp.drop (ch + 1)).length := by
        rw [List.length_drop]
        omega
      refine List.mem_iff_getElem.mpr ⟨i - (ch + 1), hj, ?_⟩
      rw [List.getElem_drop]
      have hidx2 : ch + 1 + (i - (ch + 1)) = i := by omega
      simp only [hidx2]
      exact heq.symm
    have htake := countP_lt_take_full sp p ch hch1 hbelow
    have happ : sp.countP (fun s => decide (s < p)) =
        (ch + 1) + (sp.drop (ch + 1)).countP (fun s => decide (s < p)) := by
      conv_lhs => rw [← List.take_append_drop (ch + 1) sp]
      rw [List.countP_append, htake]
    have hle_eq := countP_le_eq_countP_lt sp p hnot
    have hdef : resolveChunk sp p = cntLe sp p - 1 := rfl
    have hcle : cntLe sp p = sp.countP (fun s => decide (s ≤ p)) := rfl
    have hpos := cntLe_pos sp ⟨hs, h0⟩ p
    rw [hd]
    omega

/-- `Ok` result of the prefix binary search in `set_pos`'s `Less` branch. -/
lemma resolveChunk_take_ok (sp : List Nat) (hwf : SpWF sp) (p ch idx : Nat)
    (hch : ch ≤ sp.length)
    (habove : ∀ i (hi : i < sp.length), ch ≤ i → p < sp[i])
    (hbs : binarySearch (sp.take ch) p = .ok idx) :
    resolveChunk sp p = idx := by
  obtain ⟨hs, h0⟩ := hwf
  unfold binarySearch at hbs
  by_cases hpm : p ∈ sp.take ch
  · rw [if_pos hpm] at hbs
    have hidx : idx = (sp.take ch).indexOf p := by
      cases hbs
      rfl
    have htakePW : (sp.take ch).Pairwise (· < ·) :=
      hs.sublist (List.take_sublist ch sp)
    have hio := indexOf_eq_countP_lt _ htakePW p hpm
    have hdrop := countP_lt_drop_zero sp p ch habove
    have happ : sp.countP (fun s => decide (s < p)) =
        (sp.take ch).countP (fun s => decide (s < p)) + 0 := by
      conv_lhs => rw [← List.take_append_drop ch sp]
      rw [List.countP_append, hdrop]
    have hmem_sp : p ∈ sp := List.take_subset _ _ hpm
    have hle_eq := countP_le_eq_countP_lt_add_one sp hs p hmem_sp
    have hdef : resolveChunk sp p = cntLe sp p - 1 := rfl
    have hcle : cntLe sp p = sp.countP (fun s => decide (s ≤ p)) := rfl
    rw [hidx, hio]
    omega
  · rw [if_neg hpm] at hbs
    cases hbs

/-- `Err` result of the prefix binary search in `set_pos`'s `Less` branch:
the insertion point minus one is the canonical chunk. -/
lemma resolveChunk_take_err (sp : List Nat) (hwf : SpWF sp) (p ch d : Nat)
    (hch : ch ≤ sp.length)
    (habove : ∀ i (hi : i < sp.length), ch ≤ i → p < sp[i])
    (hbs : binarySearch (sp.take ch) p = .error d) :
    resolveChunk sp p = d - 1 := by
  obtain ⟨hs, h0⟩ := hwf
  unfold binarySearch at hbs
  by_cases hpm : p ∈ sp.take ch
  · rw [if_pos hpm] at hbs
    cases hbs
  · rw [if_neg hpm] at hbs
    have hd : d = (sp.take ch).countP (fun s => decide (s < p)) := by
      cases hbs
      rfl
    have hnot : p ∉ sp := by
      intro hmem
      obtain ⟨i, hi, hxi⟩ := List.mem_iff_getElem.mp hmem
      by_cases hic : i < ch
      · apply hpm
        have hj : i < (sp.take ch).length := by
          rw [List.length_take]
          omega
        refine List.mem_iff_getElem.mpr ⟨i, hj, ?_⟩
        rw [List.getElem_take]
        exact hxi
      · have := habove i hi (by omega)
        omega
    have hdrop := countP_lt_drop_zero sp p ch habove
    have happ : sp.countP (fun s => decide (s < p)) =
        (sp.take ch).countP (fun s => decide (s < p)) + 0 := by
      conv_lhs => rw [← List.take_append_drop ch sp]
      rw [List.countP_append, hdrop]
    have hle_eq := countP_le_eq_countP_lt sp p hnot
    have hdef : resolveChunk sp p = cntLe sp p - 1 := rfl
    have hcle : cntLe sp p = sp.countP (fun s => decide (s ≤ p)) := rfl
    rw [hd]
    omega

end BufListModel

namespace BufListModel

/-- `set_pos` always lands on the canonical chunk for the target position:
the cursor's position becomes the target and its chunk index becomes the
resolved chunk, whatever mixture of same-chunk fast paths and binary
searches the algorithm takes. -/
theorem set_pos_resolve (sp : List Nat) (hwf : SpWF sp) (c : CursorData)
    (hc : InvC sp c) (p : Nat) :
    c.set_pos p = { start_pos := sp, chunk := resolveChunk sp p, pos := p } := by
  obtain ⟨hsp, hch⟩ := hc
  obtain ⟨spc, ch, pos⟩ := c
  simp only at hsp hch
  symm at hsp
  subst hsp
  obtain ⟨hs, h0⟩ := hwf
  have hwf2 : SpWF sp := ⟨hs, h0⟩
  obtain ⟨hlen0, hz⟩ := spwf_zero sp h0
  have hdefpos : resolveChunk sp pos = cntLe sp pos - 1 := rfl
  have hcp := cntLe_pos sp hwf2 pos
  have hclen := cntLe_le_length sp pos
  have hcc : cntLe sp pos = ch + 1 := by omega
  have hchlt : ch < sp.length := by omega
  have hle_i : ∀ i (hi : i < sp.length), i ≤ ch → sp[i] ≤ pos := by
    intro i hi hic
    exact (getElem_le_iff sp hs pos i hi).mpr (by omega)
  have hnext : ∀ h1 : ch + 1 < sp.length, pos < sp[ch + 1] := by
    intro h1
    by_contra hcon
    push_neg at hcon
    have := (getElem_le_iff sp hs pos _ h1).mp hcon
    omega
  unfold CursorData.set_pos
  simp only [CursorData.mk.injEq, and_true, true_and]
  rcases Nat.lt_trichotomy p pos with hlt | heq | hgt
  · -- Less branch
    have hcmp : compare p pos = Ordering.lt := Nat.compare_eq_lt.mpr hlt
    simp only [hcmp]
    have hsome : sp[ch]? = some sp[ch] := List.getElem?_eq_getElem hchlt
    simp only [hsome, optionLe]
    by_cases hsle : sp[ch] ≤ p
    · simp only [decide_eq_true hsle, if_true]
      refine (resolveChunk_eq_of_bracket sp hwf2 p ch hchlt hsle ?_).symm
      intro hr1
      exact lt_trans hlt (hnext hr1)
    · rw [if_neg (show ¬(decide (sp[ch] ≤ p) = true) by simp [hsle])]
      have habove : ∀ i (hi : i < sp.length), ch ≤ i → p < sp[i] := by
        intro i hi hic
        have hmono : sp[ch] ≤ sp[i] := by
          rcases Nat.lt_or_ge ch i with hlt2 | hge
          · exact le_of_lt (List.pairwise_iff_getElem.mp hs ch i hchlt hi hlt2)
          · have : ch = i := by omega
            subst this
            exact le_rfl
        omega
      cases hbs : binarySearch (sp.take ch) p with
      | ok idx =>
        simp only [hbs]
        exact (resolveChunk_take_ok sp hwf2 p ch idx (by omega) habove hbs).symm
      | error d =>
        simp only [hbs]
        exact (resolveChunk_take_err sp hwf2 p ch d (by omega) habove hbs).symm
  · -- Equal branch
    subst heq
    have hcmp : compare p p = Ordering.eq := Nat.compare_eq_eq.mpr rfl
    simp only [hcmp]
    omega
  · -- Greater branch
    have hcmp : compare p pos = Ordering.gt := Nat.compare_eq_gt.mpr hgt
    simp only [hcmp]
    have hbelow : ∀ i (hi : i < sp.length), i < ch + 1 → sp[i] < p := by
      intro i hi hic
      have := hle_i i hi (by omega)
      omega
    cases hns : sp[ch + 1]? with
    | none =>
      simp only [hns, Offset.ofOption, Offset.blt, if_true]
      have hlen_le : sp.length ≤ ch + 1 := by
        simpa using List.getElem?_eq_none_iff.mp hns
      refine (resolveChunk_eq_of_bracket sp hwf2 p ch hchlt ?_ ?_).symm
      · exact le_trans (hle_i ch hchlt le_rfl) (le_of_lt hgt)
      · intro h1
        omega
    | some ns =>
      obtain ⟨hch1, hnsv⟩ := List.getElem?_eq_some.mp hns
      simp only [hns, Offset.ofOption, Offset.blt]
      by_cases hpn : p < ns
      · simp only [decide_eq_true hpn, if_true]
        refine (resolveChunk_eq_of_bracket sp hwf2 p ch hchlt ?_ ?_).symm
        · exact le_trans (hle_i ch hchlt le_rfl) (le_of_lt hgt)
        · intro hr1
          simp only [hnsv]
          exact hpn
      · rw [if_neg (show ¬(decide (p < ns) = true) by simp [hpn])]
        cases hbs : binarySearch (sp.drop (ch + 1)) p with
        | ok idx =>
          simp only [hbs]
          exact (resolveChunk_drop_ok sp hwf2 p ch idx (by omega) hbelow hbs).symm
        | error d =>
          simp only [hbs]
          exact (resolveChunk_drop_err sp hwf2 p ch d (by omega) hbelow hbs).symm

end BufListModel

namespace BufListModel

lemma remaining_append (l1 l2 : BufList) :
    remaining (l1 ++ l2) = remaining l1 + remaining l2 := by
  simp [remaining]

lemma remaining_take_le (bl : BufList) (a b : Nat) (h : a ≤ b) :
    remaining (bl.take a) ≤ remaining (bl.take b) := by
  have hb : b = a + (b - a) := by omega
  rw [hb, List.take_add, remaining_append]
  omega

lemma length_startIndex (bl : BufList) :
    (startIndex bl).length = bl.length + 1 := by
  simp [startIndex]

lemma getElem_startIndex (bl : BufList) (i : Nat) (h : i < (startIndex bl).length) :
    (startIndex bl)[i] = remaining (bl.take i) := by
  simp only [startIndex, List.getElem_map, List.getElem_range]

lemma remaining_take_succ (bl : BufList) (i : Nat) (h : i < bl.length) :
    remaining (bl.take (i + 1)) = remaining (bl.take i) + (bl[i]).length := by
  rw [List.take_succ, List.getElem?_eq_getElem h, remaining_append]
  simp [remaining]

lemma startIndex_head (bl : BufList) : (startIndex bl).head? = some 0 := by
  have hlen : 0 < (startIndex bl).length := by
    rw [length_startIndex]
    omega
  rw [List.head?_eq_getElem?, List.getElem?_eq_getElem hlen, getElem_startIndex]
  simp [remaining]

lemma startIndex_pairwise (bl : BufList) (hwf : ChunksWF bl) :
    (startIndex bl).Pairwise (· < ·) := by
  rw [List.pairwise_iff_getElem]
  intro i j hi hj hij
  rw [getElem_startIndex bl i hi, getElem_startIndex bl j hj]
  rw [length_startIndex] at hi hj
  have hchunk : bl[i].length ≥ 1 := by
    have hne := hwf bl[i] (List.getElem_mem (by omega))
    cases hb : bl[i] with
    | nil => exact absurd hb hne
    | cons a t => simp [hb]
  have h1 : remaining (bl.take i) + 1 ≤ remaining (bl.take (i + 1)) := by
    rw [remaining_take_succ bl i (by omega)]
    omega
  have h2 : remaining (bl.take (i + 1)) ≤ remaining (bl.take j) :=
    remaining_take_le bl (i + 1) j (by omega)
  omega

lemma spwf_startIndex (bl : BufList) (hwf : ChunksWF bl) :
    SpWF (startIndex bl) :=
  ⟨startIndex_pairwise bl hwf, startIndex_head bl⟩

lemma getLastD_eq_getElem_last (l : List Nat) (h : l.length - 1 < l.length) :
    l.getLastD 0 = l[l.length - 1] := by
  have hne : l ≠ [] := List.length_pos.mp (by omega)
  rw [List.getLastD_eq_getLast?, List.getLast?_eq_getLast l hne]
  simp [List.getLast_eq_getElem]

lemma startIndex_getLastD (bl : BufList) :
    (startIndex bl).getLastD 0 = remaining bl := by
  have hne : (startIndex bl).length - 1 < (startIndex bl).length := by
    rw [length_startIndex]
    omega
  rw [getLastD_eq_getElem_last _ hne, getElem_startIndex]
  rw [length_startIndex]
  simp [List.take_length]

lemma length_stream (bl : BufList) : (stream bl).length = remaining bl := by
  simp [stream, remaining, List.length_flatten]

lemma stream_append (l1 l2 : BufList) :
    stream (l1 ++ l2) = stream l1 ++ stream l2 := by
  simp [stream]

lemma stream_drop_eq (bl : BufList) (i : Nat) (h : i < bl.length) :
    (stream bl).drop (remaining (bl.take i)) =
      bl[i] ++ stream (bl.drop (i + 1)) := by
  have key : stream bl = stream (bl.take i) ++ stream (bl.drop i) := by
    rw [← stream_append, List.take_append_drop]
  rw [key]
  have hlen : remaining (bl.take i) = (stream (bl.take i)).length :=
    (length_stream _).symm
  rw [hlen, List.drop_left]
  simp only [stream]
  rw [show bl.drop i = bl[i] :: bl.drop (i + 1) from List.drop_eq_getElem_cons h]
  rw [List.flatten_cons]

end BufListModel

namespace BufListModel

/-- Unfolding of the read loop when the position is past the last chunk. -/
lemma readGo_succ_none (bl : BufList) (sp : List Nat) (fuel chunk pos space : Nat)
    (hgc : get_chunk bl chunk = none) :
    readGo bl sp (fuel + 1) chunk pos (space + 1) = (chunk, pos, []) := by
  rw [readGo, hgc]

/-- Unfolding of one iteration of the read loop on the current chunk. -/
lemma readGo_succ_some (bl : BufList) (sp : List Nat) (fuel chunk pos space : Nat)
    (ch : List Nat) (hgc : get_chunk bl chunk = some ch)
    (cp n : Nat) (hcp : cp = pos - sp.getD chunk 0)
    (hn : n = min (ch.length - cp) (space + 1)) :
    readGo bl sp (fuel + 1) chunk pos (space + 1) =
      if n = ch.length - cp then
        ((readGo bl sp fuel (chunk + 1) (pos + n) (space + 1 - n)).1,
          (readGo bl sp fuel (chunk + 1) (pos + n) (space + 1 - n)).2.1,
          (ch.drop cp).take n ++
            (readGo bl sp fuel (chunk + 1) (pos + n) (space + 1 - n)).2.2)
      else (chunk, pos + n, (ch.drop cp).take n) := by
  subst hcp
  subst hn
  rw [readGo, hgc]

end BufListModel

namespace BufListModel

/-- The read loop copies exactly `min space (total - pos)` bytes of the
logical stream starting at the current position, advances the position by
that count, and lands on the canonical chunk for the new position: the fuel
only needs to exceed the number of chunks still ahead. -/
theorem readGo_spec (bl : BufList) (hwf : ChunksWF bl) :
    ∀ fuel chunk pos space,
      bl.length - chunk < fuel →
      chunk = resolveChunk (startIndex bl) pos →
      readGo bl (startIndex bl) fuel chunk pos space =
        (resolveChunk (startIndex bl) (pos + min space (remaining bl - pos)),
          pos + min space (remaining bl - pos),
          ((stream bl).drop pos).take (min space (remaining bl - pos))) := by
  have hspwf := spwf_startIndex bl hwf
  have hspl := length_startIndex bl
  intro fuel
  induction fuel with
  | zero =>
    intro chunk pos space hf hch
    omega
  | succ fuel ih =>
    intro chunk pos space hf hch
    cases space with
    | zero =>
      simp only [readGo, Nat.zero_min, Nat.min_zero, Nat.add_zero, List.take_zero]
      rw [← hch]
    | succ space =>
      cases hgc : get_chunk bl chunk with
      | none =>
        rw [readGo_succ_none bl (startIndex bl) fuel chunk pos space hgc]
        have hchunk_ge : bl.length ≤ chunk := by
          simpa [get_chunk] using List.getElem?_eq_none_iff.mp hgc
        have hchunk_le := resolveChunk_lt_length (startIndex bl) hspwf pos
        have hchunk_eq : chunk = bl.length := by omega
        have hlast : (startIndex bl)[(startIndex bl).length - 1] ≤ pos := by
          apply (resolveChunk_eq_last_iff (startIndex bl) hspwf pos (by omega)).mp
          omega
        have htotal_le : remaining bl ≤ pos := by
          rw [getElem_startIndex] at hlast
          have hidx : (startIndex bl).length - 1 = bl.length := by omega
          rw [hidx] at hlast
          rw [List.take_length] at hlast
          exact hlast
        have hmin : min (space + 1) (remaining bl - pos) = 0 := by omega
        simp only [hmin, Nat.add_zero, List.take_zero]
        rw [← hch]
      | some ch =>
        have hchunk_lt : chunk < bl.length := by
          simpa [get_chunk] using (List.getElem?_eq_some.mp hgc).1
        have hchunk_lt2 : chunk < (startIndex bl).length := by omega
        have hch_eq : bl[chunk] = ch := (List.getElem?_eq_some.mp hgc).2
        have hch1_lt : chunk + 1 < (startIndex bl).length := by omega
        have hs_ch : (startIndex bl)[chunk] = remaining (bl.take chunk) :=
          getElem_startIndex bl chunk (by omega)
        have hs_ch1 : (startIndex bl)[chunk + 1] =
            remaining (bl.take chunk) + ch.length := by
          rw [getElem_startIndex bl (chunk + 1) hch1_lt,
            remaining_take_succ bl chunk hchunk_lt, hch_eq]
        have hcnt_pos := cntLe_pos (startIndex bl) hspwf pos
        have hdefr : resolveChunk (startIndex bl) pos = cntLe (startIndex bl) pos - 1 := rfl
        have hcc : cntLe (startIndex bl) pos = chunk + 1 := by omega
        have hpos_low : remaining (bl.take chunk) ≤ pos := by
          rw [← hs_ch]
          exact (getElem_le_iff _ hspwf.1 pos chunk (by omega)).mpr (by omega)
        have hpos_high : pos < remaining (bl.take chunk) + ch.length := by
          rw [← hs_ch1]
          by_contra hcon
          push_neg at hcon
          have := (getElem_le_iff _ hspwf.1 pos (chunk + 1) hch1_lt).mp hcon
          omega
        have hgd : pos - remaining (bl.take chunk) = pos - (startIndex bl).getD chunk 0 := by
          rw [List.getD_eq_getElem?_getD,
            List.getElem?_eq_getElem (show chunk < (startIndex bl).length by omega)]
          simp [hs_ch]
        have htot1 : remaining (bl.take (chunk + 1)) ≤ remaining bl := by
          have := remaining_take_le bl (chunk + 1) bl.length (by omega)
          rwa [List.take_length] at this
        have htot2 : remaining (bl.take chunk) + ch.length ≤ remaining bl := by
          rw [remaining_take_succ bl chunk hchunk_lt, hch_eq] at htot1
          exact htot1
        have hstream : (stream bl).drop pos =
            ch.drop (pos - remaining (bl.take chunk)) ++ stream (bl.drop (chunk + 1)) := by
          have h1 := stream_drop_eq bl chunk hchunk_lt
          rw [hch_eq] at h1
          have h2 : pos = remaining (bl.take chunk) + (pos - remaining (bl.take chunk)) := by
            omega
          rw [h2, ← List.drop_drop, h1, List.drop_append_of_le_length (by omega),
            Nat.add_sub_cancel_left]
        have hlenD : (ch.drop (pos - remaining (bl.take chunk))).length =
            ch.length - (pos - remaining (bl.take chunk)) := by
          rw [List.length_drop]
        rw [readGo_succ_some bl (startIndex bl) fuel chunk pos space ch hgc
          (pos - remaining (bl.take chunk))
          (min (ch.length - (pos - remaining (bl.take chunk))) (space + 1)) hgd rfl]
        by_cases hif : min (ch.length - (pos - remaining (bl.take chunk))) (space + 1) =
            ch.length - (pos - remaining (bl.take chunk))
        · rw [if_pos hif]
          have hn_le : ch.length - (pos - remaining (bl.take chunk)) ≤ space + 1 := by
            omega
          have hposn : pos + min (ch.length - (pos - remaining (bl.take chunk))) (space + 1) =
              remaining (bl.take chunk) + ch.length := by
            omega
          have hinv2 : chunk + 1 =
              resolveChunk (startIndex bl) (remaining (bl.take chunk) + ch.length) := by
            refine (resolveChunk_eq_of_bracket (startIndex bl) hspwf _ (chunk + 1)
              hch1_lt ?_ ?_).symm
            · rw [hs_ch1]
            · intro hr2
              have hmono := List.pairwise_iff_getElem.mp hspwf.1 (chunk + 1) (chunk + 2)
                hch1_lt hr2 (by omega)
              rw [hs_ch1] at hmono
              exact hmono
          rw [hposn]
          rw [ih (chunk + 1) (remaining (bl.take chunk) + ch.length) (space + 1 -
            min (ch.length - (pos - remaining (bl.take chunk))) (space + 1))
            (by omega) hinv2]
          simp only [Prod.mk.injEq]
          have hm_split : pos + min (space + 1) (remaining bl - pos) =
              remaining (bl.take chunk) + ch.length +
                min (space + 1 - min (ch.length - (pos - remaining (bl.take chunk))) (space + 1))
                  (remaining bl - (remaining (bl.take chunk) + ch.length)) := by
            omega
          refine ⟨by rw [hm_split], by rw [hm_split], ?_⟩
          rw [hstream]
          have hdropn : (stream bl).drop (remaining (bl.take chunk) + ch.length) =
              stream (bl.drop (chunk + 1)) := by
            have h2 : remaining (bl.take chunk) + ch.length =
                pos + (ch.length - (pos - remaining (bl.take chunk))) := by omega
            rw [h2, ← List.drop_drop, hstream,
              List.drop_append_of_le_length (by omega)]
            rw [List.drop_of_length_le (by omega)]
            simp
          rw [hdropn]
          rw [List.take_append_eq_append_take]
          have hmm : min (space + 1) (remaining bl - pos) =
              min (ch.length - (pos - remaining (bl.take chunk))) (space + 1) +
                min (space + 1 - min (ch.length - (pos - remaining (bl.take chunk))) (space + 1))
                  (remaining bl - (remaining (bl.take chunk) + ch.length)) := by
            omega
          rw [hmm]
          have hnD : min (ch.length - (pos - remaining (bl.take chunk))) (space + 1) =
              (ch.drop (pos - remaining (bl.take chunk))).length := by
            rw [hlenD]
            omega
          rw [hnD, List.take_length]
          congr 1
          · exact (List.take_of_length_le (Nat.le_add_right _ _)).symm
          · congr 1
            omega
        · rw [if_neg hif]
          have hn_eq : min (ch.length - (pos - remaining (bl.take chunk))) (space + 1) =
              space + 1 := by
            omega
          have hlt2 : space + 1 < ch.length - (pos - remaining (bl.take chunk)) := by
            omega
          rw [hn_eq]
          have hm_eq : min (space + 1) (remaining bl - pos) = space + 1 := by
            omega
          rw [hm_eq]
          simp only [Prod.mk.injEq]
          refine ⟨?_, ?_, ?_⟩
          · refine (resolveChunk_eq_of_bracket (startIndex bl) hspwf _ chunk
              (by omega) ?_ ?_).symm
            · rw [hs_ch]
              omega
            · intro hr2
              rw [hs_ch1]
              omega
          · trivial
          · rw [hstream, List.take_append_of_le_length (by omega)]

end BufListModel

namespace BufListModel

lemma resolveChunk_zero (sp : List Nat) (hwf : SpWF sp) : resolveChunk sp 0 = 0 := by
  obtain ⟨hlen0, hz⟩ := spwf_zero sp hwf.2
  refine resolveChunk_eq_of_bracket sp hwf 0 0 hlen0 (by omega) ?_
  intro hr1
  have h2 := List.pairwise_iff_getElem.mp hwf.1 0 1 hlen0 (by omega) (by omega)
  rw [hz] at h2
  simpa using h2

/-- A freshly built cursor satisfies the canonical invariant. -/
lemma invC_new (bl : BufList) (hwf : ChunksWF bl) :
    InvC (startIndex bl) (CursorData.new bl) := by
  refine ⟨rfl, ?_⟩
  show 0 = resolveChunk (startIndex bl) 0
  rw [resolveChunk_zero (startIndex bl) (spwf_startIndex bl hwf)]

/-- The cursor's cached total length is the buffer's. -/
lemma num_bytes_eq (bl : BufList) (c : CursorData)
    (hsp : c.start_pos = startIndex bl) : c.num_bytes = remaining bl := by
  rw [CursorData.num_bytes, hsp, startIndex_getLastD]

/-- Characterization of `read_impl` on an invariant-satisfying cursor. -/
theorem read_impl_spec (bl : BufList) (hwf : ChunksWF bl) (c : CursorData)
    (hc : InvC (startIndex bl) c) (bufLen : Nat) :
    c.read_impl bl bufLen =
      ({ start_pos := startIndex bl,
         chunk := resolveChunk (startIndex bl)
           (c.pos + min bufLen (remaining bl - c.pos)),
         pos := c.pos + min bufLen (remaining bl - c.pos) },
        ((stream bl).drop c.pos).take (min bufLen (remaining bl - c.pos))) := by
  obtain ⟨hsp, hch⟩ := hc
  have hr := readGo_spec bl hwf (bl.length + 1) c.chunk c.pos bufLen (by omega) hch
  rw [CursorData.read_impl, hsp, hr]

/-- Length of the bytes `read_impl` returns. -/
lemma read_bytes_length (bl : BufList) (pos bufLen : Nat) :
    (((stream bl).drop pos).take (min bufLen (remaining bl - pos))).length =
      min bufLen (remaining bl - pos) := by
  rw [List.length_take, List.length_drop, length_stream]
  omega

/-- The truncated take and the untruncated take agree on the stream tail. -/
lemma read_bytes_take_eq (bl : BufList) (pos bufLen : Nat) :
    ((stream bl).drop pos).take (min bufLen (remaining bl - pos)) =
      ((stream bl).drop pos).take bufLen := by
  have hlen : ((stream bl).drop pos).length = remaining bl - pos := by
    rw [List.length_drop, length_stream]
  rcases Nat.le_total bufLen (remaining bl - pos) with h | h
  · rw [Nat.min_eq_left h]
  · rw [Nat.min_eq_right h, List.take_of_length_le (by omega),
      List.take_of_length_le (by omega)]

/-- Simulation relation: the segmented cursor satisfies its invariant and
agrees on the position with the reference cursor. -/
def Sim (bl : BufList) (c : CursorData) (r : RefCursor) : Prop :=
  InvC (startIndex bl) c ∧ c.pos = r.rpos

/-- One step of the equivalence: each operation preserves the simulation
relation and produces identical observations. -/
theorem applyOp_sim (bl : BufList) (hwf : ChunksWF bl) (c : CursorData)
    (r : RefCursor) (op : Op) (hsim : Sim bl c r) :
    Sim bl (applyOp bl c op).1 (refApplyOp (stream bl) r op).1 ∧
      (applyOp bl c op).2 = (refApplyOp (stream bl) r op).2 := by
  obtain ⟨hinv, hpos⟩ := hsim
  have hspwf := spwf_startIndex bl hwf
  have hsp := hinv.1
  cases op with
  | setPosition p =>
    simp only [applyOp, refApplyOp]
    rw [set_pos_resolve (startIndex bl) hspwf c hinv p]
    exact ⟨⟨⟨rfl, rfl⟩, rfl⟩, by trivial⟩
  | read bufLen =>
    have hread := read_impl_spec bl hwf c hinv bufLen
    simp only [applyOp, refApplyOp, hread, RefCursor.read, RefCursor.restOf]
    rw [← hpos, ← read_bytes_take_eq bl c.pos bufLen]
    refine ⟨⟨⟨rfl, rfl⟩, ?_⟩, rfl⟩
    simp only [read_bytes_length]
  | consume amt =>
    simp only [applyOp, refApplyOp, CursorData.consume_impl, RefCursor.consume, hpos]
    rw [set_pos_resolve (startIndex bl) hspwf c hinv ((r.rpos + amt) % U64MOD)]
    exact ⟨⟨⟨rfl, rfl⟩, rfl⟩, by trivial⟩
  | fillBufEmpty =>
    refine ⟨⟨hinv, hpos⟩, ?_⟩
    simp only [applyOp, refApplyOp, Obs.emptyRes.injEq]
    rw [CursorData.fill_buf_impl]
    have hdef : resolveChunk (startIndex bl) c.pos = cntLe (startIndex bl) c.pos - 1 := rfl
    have hcp := cntLe_pos (startIndex bl) hspwf c.pos
    have hclen := cntLe_le_length (startIndex bl) c.pos
    have hspl := length_startIndex bl
    cases hgc : c.get_chunk_and_pos bl with
    | none =>
      -- chunk is the sentinel, so the position is at or past total length
      rw [CursorData.get_chunk_and_pos] at hgc
      have hnone : get_chunk bl c.chunk = none := by
        cases hgc2 : get_chunk bl c.chunk with
        | none => rfl
        | some ch =>
          rw [hgc2] at hgc
          cases hgc
      have hge : bl.length ≤ c.chunk := by
        simpa [get_chunk] using List.getElem?_eq_none_iff.mp hnone
      have hchr := hinv.2
      have hrlt := resolveChunk_lt_length (startIndex bl) hspwf c.pos
      have hcheq : c.chunk = bl.length := by omega
      have hlast : (startIndex bl)[(startIndex bl).length - 1] ≤ c.pos := by
        apply (resolveChunk_eq_last_iff (startIndex bl) hspwf c.pos (by omega)).mp
        omega
      rw [getElem_startIndex] at hlast
      have hidx : (startIndex bl).length - 1 = bl.length := by omega
      rw [hidx, List.take_length] at hlast
      have hdropn : (stream bl).drop r.rpos = [] := by
        apply List.drop_eq_nil_of_le
        rw [length_stream]
        omega
      simp [RefCursor.restOf, hdropn]
    | some pair =>
      obtain ⟨ch, cpos⟩ := pair
      rw [CursorData.get_chunk_and_pos] at hgc
      cases hgc2 : get_chunk bl c.chunk with
      | none =>
        rw [hgc2] at hgc
        cases hgc
      | some ch2 =>
        rw [hgc2] at hgc
        have hch2 : ch2 = ch ∧ c.pos - (c.start_pos.getD c.chunk 0) = cpos := by
          cases hgc
          exact ⟨rfl, rfl⟩
        have hchlt : c.chunk < bl.length := by
          simpa [get_chunk] using (List.getElem?_eq_some.mp hgc2).1
        have hchlt2 : c.chunk < (startIndex bl).length := by
          rw [hspl]
          omega
        have hcheq : bl[c.chunk] = ch2 := (List.getElem?_eq_some.mp hgc2).2
        -- below the sentinel: the position is inside the current chunk
        have hchr := hinv.2
        have hspl2 : c.chunk + 1 < (startIndex bl).length := by
          rw [hspl]
          omega
        have hs_ch : (startIndex bl)[c.chunk] = remaining (bl.take c.chunk) :=
          getElem_startIndex bl c.chunk (by omega)
        have hs_ch1 : (startIndex bl)[c.chunk + 1] =
            remaining (bl.take c.chunk) + ch2.length := by
          rw [getElem_startIndex bl (c.chunk + 1) hspl2,
            remaining_take_succ bl c.chunk hchlt, hcheq]
        have hpos_low : remaining (bl.take c.chunk) ≤ c.pos := by
          rw [← hs_ch]
          exact (getElem_le_iff _ hspwf.1 c.pos c.chunk (by omega)).mpr (by omega)
        have hpos_high : c.pos < remaining (bl.take c.chunk) + ch2.length := by
          rw [← hs_ch1]
          by_contra hcon
          push_neg at hcon
          have := (getElem_le_iff _ hspwf.1 c.pos (c.chunk + 1) hspl2).mp hcon
          omega
        have hcpos : cpos = c.pos - remaining (bl.take c.chunk) := by
          rw [← hch2.2, hsp]
          rw [List.getD_eq_getElem?_getD,
            List.getElem?_eq_getElem (show c.chunk < (startIndex bl).length by omega)]
          simp [hs_ch]
        have hne1 : (ch.drop cpos) ≠ [] := by
          rw [← hch2.1, hcpos]
          intro hcon
          have := List.drop_eq_nil_iff.mp hcon
          omega
        have htot : remaining (bl.take c.chunk) + ch2.length ≤ remaining bl := by
          have h5 := remaining_take_le bl (c.chunk + 1) bl.length (by omega)
          rw [List.take_length, remaining_take_succ bl c.chunk hchlt, hcheq] at h5
          exact h5
        have hne2 : (stream bl).drop r.rpos ≠ [] := by
          intro hcon
          have := List.drop_eq_nil_iff.mp hcon
          rw [length_stream] at this
          omega
        have e1 : (ch.drop cpos).isEmpty = false := by
          cases hc2 : ch.drop cpos with
          | nil => exact absurd hc2 hne1
          | cons a t => rfl
        have e2 : ((stream bl).drop r.rpos).isEmpty = false := by
          cases hc2 : (stream bl).drop r.rpos with
          | nil => exact absurd hc2 hne2
          | cons a t => rfl
        rw [RefCursor.restOf, e1, e2]
  | seek style =>
    cases style with
    | fromStart n =>
      simp only [applyOp, refApplyOp, CursorData.seek_impl, RefCursor.seek]
      rw [set_pos_resolve (startIndex bl) hspwf c hinv n]
      exact ⟨⟨⟨rfl, rfl⟩, rfl⟩, by trivial⟩
    | fromEnd off =>
      have hbase : c.num_bytes = (stream bl).length := by
        rw [num_bytes_eq bl c hsp, length_stream]
      simp only [applyOp, refApplyOp, CursorData.seek_impl, RefCursor.seek,
        CursorData.seek_rel, RefCursor.seekRel, hbase]
      by_cases hoff : 0 ≤ off
      · simp only [if_pos hoff]
        by_cases hov : (stream bl).length + off.toNat < U64MOD
        · simp only [if_pos hov]
          rw [set_pos_resolve (startIndex bl) hspwf c hinv _]
          exact ⟨⟨⟨rfl, rfl⟩, rfl⟩, by trivial⟩
        · simp only [if_neg hov]
          exact ⟨⟨hinv, hpos⟩, by trivial⟩
      · simp only [if_neg hoff]
        by_cases hun : off.natAbs ≤ (stream bl).length
        · simp only [if_pos hun]
          rw [set_pos_resolve (startIndex bl) hspwf c hinv _]
          exact ⟨⟨⟨rfl, rfl⟩, rfl⟩, by trivial⟩
        · simp only [if_neg hun]
          exact ⟨⟨hinv, hpos⟩, by trivial⟩
    | current off =>
      simp only [applyOp, refApplyOp, CursorData.seek_impl, RefCursor.seek,
        CursorData.seek_rel, RefCursor.seekRel, hpos]
      by_cases hoff : 0 ≤ off
      · simp only [if_pos hoff]
        by_cases hov : r.rpos + off.toNat < U64MOD
        · simp only [if_pos hov]
          rw [set_pos_resolve (startIndex bl) hspwf c hinv _]
          exact ⟨⟨⟨rfl, rfl⟩, rfl⟩, by trivial⟩
        · simp only [if_neg hov]
          exact ⟨⟨hinv, hpos⟩, by trivial⟩
      · simp only [if_neg hoff]
        by_cases hun : off.natAbs ≤ r.rpos
        · simp only [if_pos hun]
          rw [set_pos_resolve (startIndex bl) hspwf c hinv _]
          exact ⟨⟨⟨rfl, rfl⟩, rfl⟩, by trivial⟩
        · simp only [if_neg hun]
          exact ⟨⟨hinv, hpos⟩, by trivial⟩
  | readExact bufLen =>
    have hnb : c.num_bytes = remaining bl := num_bytes_eq bl c hsp
    simp only [applyOp, refApplyOp, CursorData.read_exact_impl, RefCursor.read_exact,
      hnb, length_stream, hpos]
    by_cases hrem : remaining bl - r.rpos < bufLen
    · simp only [if_pos hrem]
      exact ⟨⟨hinv, hpos⟩, rfl⟩
    · simp only [if_neg hrem]
      have hread := read_impl_spec bl hwf c hinv bufLen
      simp only [hread, RefCursor.read, RefCursor.restOf]
      rw [← hpos, ← read_bytes_take_eq bl c.pos bufLen]
      exact ⟨⟨⟨rfl, rfl⟩, by simp only [read_bytes_length]⟩, rfl⟩
  | readVectored lens =>
    -- inner induction over the destination slots
    suffices h : ∀ lens (c : CursorData) (r : RefCursor), InvC (startIndex bl) c →
        c.pos = r.rpos →
        (InvC (startIndex bl) (c.read_vectored_impl bl lens).1 ∧
          (c.read_vectored_impl bl lens).1.pos = (r.read_vectored (stream bl) lens).1.rpos) ∧
        (c.read_vectored_impl bl lens).2.1 = (r.read_vectored (stream bl) lens).2.1 ∧
        (c.read_vectored_impl bl lens).2.2 = (r.read_vectored (stream bl) lens).2.2 by
      have h2 := h lens c r hinv hpos
      simp only [applyOp, refApplyOp]
      exact ⟨⟨h2.1.1, h2.1.2⟩, by rw [h2.2.1, h2.2.2]⟩
    intro lens
    induction lens with
    | nil =>
      intro c r hinv hpos
      simp only [CursorData.read_vectored_impl, RefCursor.read_vectored]
      exact ⟨⟨hinv, hpos⟩, by trivial, by trivial⟩
    | cons bufLen rest ih =>
      intro c r hinv hpos
      have hread := read_impl_spec bl hwf c hinv bufLen
      simp only [CursorData.read_vectored_impl, RefCursor.read_vectored, hread,
        RefCursor.read, RefCursor.restOf]
      rw [← hpos, ← read_bytes_take_eq bl c.pos bufLen]
      simp only [read_bytes_length]
      by_cases hlt : min bufLen (remaining bl - c.pos) < bufLen
      · simp only [if_pos hlt]
        refine ⟨⟨⟨rfl, rfl⟩, ?_⟩, ?_, ?_⟩ <;> trivial
      · simp only [if_neg hlt]
        have hinv2 : InvC (startIndex bl)
            ({ start_pos := startIndex bl,
               chunk := resolveChunk (startIndex bl)
                 (c.pos + min bufLen (remaining bl - c.pos)),
               pos := c.pos + min bufLen (remaining bl - c.pos) } : CursorData) :=
          ⟨rfl, rfl⟩
        have h3 := ih
          ({ start_pos := startIndex bl,
             chunk := resolveChunk (startIndex bl)
               (c.pos + min bufLen (remaining bl - c.pos)),
             pos := c.pos + min bufLen (remaining bl - c.pos) } : CursorData)
          ⟨c.pos + min bufLen (remaining bl - c.pos)⟩ hinv2 rfl
        refine ⟨h3.1, ?_, ?_⟩
        · rw [h3.2.1]
        · rw [h3.2.2]

end BufListModel

namespace BufListModel

/-- Trace equivalence: related cursors produce identical traces. -/
theorem run_sim (bl : BufList) (hwf : ChunksWF bl) :
    ∀ (ops : List Op) (c : CursorData) (r : RefCursor), Sim bl c r →
      runBL bl c ops = runRef (stream bl) r ops := by
  intro ops
  induction ops with
  | nil =>
    intro c r _
    rfl
  | cons op rest ih =>
    intro c r hsim
    obtain ⟨hsim2, hobs⟩ := applyOp_sim bl hwf c r op hsim
    simp only [runBL, runRef]
    rw [hobs, hsim2.2, ih _ _ hsim2]

/-- C1. For every `BufList` of non-empty chunks and every finite sequence of
cursor operations (`set_position`, the three `seek` origins, `read`,
`read_vectored`, `read_exact`, `fill_buf`-emptiness, `consume`), the
observed position after each operation, the bytes and counts returned, and
the error kinds produced equal those of the reference cursor over the
contiguous concatenation of the same bytes. -/
theorem cursor_equiv_reference (bl : BufList) (hwf : ChunksWF bl)
    (ops : List Op) :
    runBL bl (CursorData.new bl) ops = runRef (stream bl) ⟨0⟩ ops :=
  run_sim bl hwf ops (CursorData.new bl) ⟨0⟩ ⟨invC_new bl hwf, rfl⟩

/-- Witness for C1 on the chunk list `[[1], [2, 3, 4]]` and a mixed
operation sequence exercising reads, seeks, and past-end behaviour. -/
theorem cursor_equiv_reference_witness :
    ChunksWF [[1], [2, 3, 4]] ∧
      runBL [[1], [2, 3, 4]] (CursorData.new [[1], [2, 3, 4]])
          [Op.read 2, Op.seek (SeekFrom.current (-1)), Op.readVectored [1, 2],
            Op.readExact 3, Op.setPosition 3, Op.fillBufEmpty, Op.consume 4,
            Op.fillBufEmpty, Op.seek (SeekFrom.fromEnd (-2)), Op.read 10] =
        runRef (stream [[1], [2, 3, 4]]) ⟨0⟩
          [Op.read 2, Op.seek (SeekFrom.current (-1)), Op.readVectored [1, 2],
            Op.readExact 3, Op.setPosition 3, Op.fillBufEmpty, Op.consume 4,
            Op.fillBufEmpty, Op.seek (SeekFrom.fromEnd (-2)), Op.read 10] :=
  ⟨by decide, cursor_equiv_reference [[1], [2, 3, 4]] (by decide) _⟩

end BufListModel

namespace BufListModel

/-- Invariant preservation for a single operation. -/
lemma applyOp_invC (bl : BufList) (hwf : ChunksWF bl) (c : CursorData)
    (op : Op) (hinv : InvC (startIndex bl) c) :
    InvC (startIndex bl) (applyOp bl c op).1 :=
  (applyOp_sim bl hwf c ⟨c.pos⟩ op ⟨hinv, rfl⟩).1.1

/-- Invariant preservation along any operation sequence. -/
lemma applyOps_invC (bl : BufList) (hwf : ChunksWF bl) :
    ∀ (ops : List Op) (c : CursorData), InvC (startIndex bl) c →
      InvC (startIndex bl) (applyOps bl c ops) := by
  intro ops
  induction ops with
  | nil =>
    intro c hinv
    exact hinv
  | cons op rest ih =>
    intro c hinv
    exact ih _ (applyOp_invC bl hwf c op hinv)

/-- The invariant exactly as the specification states it: within range the
offset is bracketed by the chunk's start offsets, and at or past the total
length the chunk index is the past-end sentinel, however far past the end
the offset is. -/
def InvSpec (bl : BufList) (c : CursorData) : Prop :=
  c.start_pos = startIndex bl ∧
    (c.pos < remaining bl →
      ∃ h : c.chunk + 1 < (startIndex bl).length,
        (startIndex bl)[c.chunk] ≤ c.pos ∧
          c.pos < (startIndex bl)[c.chunk + 1]) ∧
    (remaining bl ≤ c.pos → c.chunk = bl.length)

/-- The canonical invariant implies the specification's phrasing. -/
lemma invC_invSpec (bl : BufList) (hwf : ChunksWF bl) (c : CursorData)
    (hinv : InvC (startIndex bl) c) : InvSpec bl c := by
  have hspwf := spwf_startIndex bl hwf
  have hspl := length_startIndex bl
  obtain ⟨hsp, hch⟩ := hinv
  have hdef : resolveChunk (startIndex bl) c.pos = cntLe (startIndex bl) c.pos - 1 := rfl
  have hcp := cntLe_pos (startIndex bl) hspwf c.pos
  have hclen := cntLe_le_length (startIndex bl) c.pos
  have hlastIdx : (startIndex bl)[bl.length] = remaining bl := by
    rw [getElem_startIndex bl bl.length (by omega), List.take_length]
  refine ⟨hsp, ?_, ?_⟩
  · intro hlt
    have hnotlast : c.chunk ≠ bl.length := by
      intro hcon
      have h1 := (resolveChunk_eq_last_iff (startIndex bl) hspwf c.pos (by omega)).mp
        (by omega)
      have h2 : (startIndex bl).length - 1 = bl.length := by omega
      simp only [h2, hlastIdx] at h1
      omega
    have hrlt := resolveChunk_lt_length (startIndex bl) hspwf c.pos
    have hck : c.chunk + 1 < (startIndex bl).length := by omega
    refine ⟨hck, ?_, ?_⟩
    · exact (getElem_le_iff _ hspwf.1 c.pos c.chunk (by omega)).mpr (by omega)
    · by_contra hcon
      push_neg at hcon
      have := (getElem_le_iff _ hspwf.1 c.pos (c.chunk + 1) hck).mp hcon
      omega
  · intro hge
    have h1 := (resolveChunk_eq_last_iff (startIndex bl) hspwf c.pos (by omega)).mpr
      (by simp only [show (startIndex bl).length - 1 = bl.length by omega, hlastIdx]; omega)
    omega

/-- C2. Every cursor built by `Cursor::new` satisfies the cursor-state
invariant after every sequence of operations: while the offset is below the
total length, `start_pos[chunk] ≤ offset < start_pos[chunk+1]`; once the
offset is at or past the total length — by any amount — the chunk index is
the past-end sentinel (the number of chunks). -/
theorem cursor_invariant_ops (bl : BufList) (hwf : ChunksWF bl)
    (ops : List Op) :
    InvSpec bl (applyOps bl (CursorData.new bl) ops) :=
  invC_invSpec bl hwf _
    (applyOps_invC bl hwf ops (CursorData.new bl) (invC_new bl hwf))

/-- Witness for C2: a sequence that parks the offset far past the end and
then returns inside. -/
theorem cursor_invariant_ops_witness :
    ChunksWF [[5], [6, 7]] ∧
      InvSpec [[5], [6, 7]]
        (applyOps [[5], [6, 7]] (CursorData.new [[5], [6, 7]])
          [Op.setPosition 1000, Op.seek (SeekFrom.current (-998)), Op.read 1]) :=
  ⟨by decide, cursor_invariant_ops [[5], [6, 7]] (by decide) _⟩

end BufListModel

namespace BufListModel

/-- C3. `set_position` follows the position-resolution algorithm and never
fails: the position becomes the target; an equal target is a no-op; a larger
target still below the next chunk's start offset (with the trailing sentinel
and end-of-array strictly above every finite offset) keeps the chunk index;
in every case — boundary hit or miss, forward or backward search — the
selected chunk is the unique one with `start[c] ≤ p < start[c+1]`, an exact
boundary match selecting that boundary's chunk, and targets at or past the
total length selecting the sentinel. -/
theorem set_position_spec (bl : BufList) (hwf : ChunksWF bl) (c : CursorData)
    (hinv : InvC (startIndex bl) c) (p : Nat) :
    (c.set_pos p).pos = p ∧
    (c.set_pos p).chunk = resolveChunk (startIndex bl) p ∧
    (p = c.pos → c.set_pos p = c) ∧
    (c.pos < p → Offset.blt (Offset.Value p)
        (Offset.ofOption (startIndex bl)[c.chunk + 1]?) = true →
      (c.set_pos p).chunk = c.chunk) ∧
    (p < remaining bl →
      ∃ h : (c.set_pos p).chunk + 1 < (startIndex bl).length,
        (startIndex bl)[(c.set_pos p).chunk] ≤ p ∧
          p < (startIndex bl)[(c.set_pos p).chunk + 1]) ∧
    (∀ i (hi : i < (startIndex bl).length), (startIndex bl)[i] = p →
      (c.set_pos p).chunk = i) ∧
    (remaining bl ≤ p → (c.set_pos p).chunk = bl.length) := by
  have hspwf := spwf_startIndex bl hwf
  have hspl := length_startIndex bl
  have hres := set_pos_resolve (startIndex bl) hspwf c hinv p
  have hinv2 : InvC (startIndex bl) (c.set_pos p) := by
    rw [hres]
    exact ⟨rfl, rfl⟩
  have hspec := invC_invSpec bl hwf (c.set_pos p) hinv2
  have hposp : (c.set_pos p).pos = p := by rw [hres]
  refine ⟨hposp, by rw [hres], ?_, ?_, ?_, ?_, ?_⟩
  · intro heq
    obtain ⟨hsp, hch⟩ := hinv
    obtain ⟨spc, ch, pos⟩ := c
    simp only at hsp hch heq
    subst heq
    rw [hres, hsp, hch]
  · intro hlt hblt
    rw [hres]
    obtain ⟨hsp, hch⟩ := hinv
    have hdef : resolveChunk (startIndex bl) c.pos = cntLe (startIndex bl) c.pos - 1 := rfl
    have hcp := cntLe_pos (startIndex bl) hspwf c.pos
    have hclen := cntLe_le_length (startIndex bl) c.pos
    have hcc : cntLe (startIndex bl) c.pos = c.chunk + 1 := by omega
    have hchlt : c.chunk < (startIndex bl).length := by omega
    refine resolveChunk_eq_of_bracket (startIndex bl) hspwf p c.chunk hchlt ?_ ?_
    · have h1 := (getElem_le_iff _ hspwf.1 c.pos c.chunk hchlt).mpr (by omega)
      omega
    · intro hr1
      cases hns : (startIndex bl)[c.chunk + 1]? with
      | none =>
        have := List.getElem?_eq_none_iff.mp hns
        omega
      | some ns =>
        obtain ⟨h2, h3⟩ := List.getElem?_eq_some.mp hns
        rw [hns] at hblt
        simp only [Offset.ofOption, Offset.blt, decide_eq_true_eq] at hblt
        rw [h3]
        exact hblt
  · intro hlt
    obtain ⟨h1, h2⟩ := hspec.2.1 (by rw [hposp]; exact hlt)
    rw [hposp] at h2
    exact ⟨h1, h2⟩
  · intro i hi hip
    rw [hres]
    refine resolveChunk_eq_of_bracket (startIndex bl) hspwf p i hi (by rw [hip]) ?_
    intro hi1
    have := List.pairwise_iff_getElem.mp hspwf.1 i (i + 1) hi hi1 (by omega)
    omega
  · intro hge
    exact hspec.2.2 (by rw [hposp]; exact hge)

/-- Witness for C3 at a backward boundary-hit target. -/
theorem set_position_spec_witness :
    ChunksWF [[1], [2, 3], [4]] ∧
      (((CursorData.new [[1], [2, 3], [4]]).set_pos 3).set_pos 1).pos = 1 :=
  ⟨by decide,
    (set_position_spec [[1], [2, 3], [4]] (by decide)
      ((CursorData.new [[1], [2, 3], [4]]).set_pos 3)
      ⟨rfl, by decide⟩ 1).1⟩

end BufListModel

namespace BufListModel

/-- C4 counterexample: with a zero-length destination the returned count is
0 even though the position (0) is before the end (total length 1), so the
count being 0 is not equivalent to being at or past the end. -/
theorem read_count_zero_counterexample :
    ((CursorData.new [[1]]).read_impl [[1]] 0).2.length = 0 ∧
      ¬ remaining [[1]] ≤ (CursorData.new [[1]]).pos := by
  decide

/-- C4 (amended). `read` copies forward from the current position, crossing
chunk boundaries as needed, exactly `min(destination length, total length -
position)` bytes; the bytes are the corresponding bytes of the concatenated
stream; the position advances by the count; reading at or past the end
yields 0 without error; and for a **non-empty** destination the count is 0
exactly when the position is at or past the end. -/
theorem read_spec (bl : BufList) (hwf : ChunksWF bl) (c : CursorData)
    (hinv : InvC (startIndex bl) c) (bufLen : Nat) :
    (c.read_impl bl bufLen).2 =
      ((stream bl).drop c.pos).take (min bufLen (remaining bl - c.pos)) ∧
    (c.read_impl bl bufLen).2.length = min bufLen (remaining bl - c.pos) ∧
    (c.read_impl bl bufLen).1.pos = c.pos + (c.read_impl bl bufLen).2.length ∧
    (remaining bl ≤ c.pos → (c.read_impl bl bufLen).2.length = 0) ∧
    (0 < bufLen →
      ((c.read_impl bl bufLen).2.length = 0 ↔ remaining bl ≤ c.pos)) := by
  have hread := read_impl_spec bl hwf c hinv bufLen
  have hlen := read_bytes_length bl c.pos bufLen
  refine ⟨by rw [hread], by rw [hread]; exact hlen, by rw [hread, hlen], ?_, ?_⟩
  · intro hge
    rw [hread]
    rw [hlen]
    omega
  · intro hpos
    rw [hread, hlen]
    omega

/-- Witness for C4 on a two-chunk buffer and a read crossing the boundary. -/
theorem read_spec_witness :
    ChunksWF [[1, 2], [3]] ∧
      ((CursorData.new [[1, 2], [3]]).read_impl [[1, 2], [3]] 3).2 = [1, 2, 3] := by
  refine ⟨by decide, ?_⟩
  have h := (read_spec [[1, 2], [3]] (by decide) (CursorData.new [[1, 2], [3]])
    ⟨rfl, by decide⟩ 3).1
  rw [h]
  decide

/-- The resolved target of a seek: its base plus the signed delta. -/
def seekTarget (bl : BufList) (c : CursorData) : SeekFrom → Int
  | .fromStart n => (n : Int)
  | .fromEnd off => (remaining bl : Int) + off
  | .current off => (c.pos : Int) + off

/-- The `u64` well-formedness of a `Start` seek parameter. -/
def SeekWF : SeekFrom → Prop
  | .fromStart n => n < U64MOD
  | .fromEnd _ => True
  | .current _ => True

/-- C5. `seek` resolves its base as 0 for `Start`, the total length for
`End`, and the current offset for `Current`, adds the delta, and fails with
the invalid-seek error exactly when the result would be negative or would
not fit in `u64` — leaving the position unchanged in that case; otherwise it
moves the cursor to the result (legal even past the total length) and
returns the new offset. -/
theorem seek_spec (bl : BufList) (hwf : ChunksWF bl) (c : CursorData)
    (hinv : InvC (startIndex bl) c) (style : SeekFrom)
    (hpos64 : c.pos < U64MOD) (htot64 : remaining bl < U64MOD)
    (hstyle : SeekWF style) :
    (0 ≤ seekTarget bl c style ∧ seekTarget bl c style < (U64MOD : Int) →
      c.seek_impl style =
        ({ start_pos := startIndex bl,
           chunk := resolveChunk (startIndex bl) (seekTarget bl c style).toNat,
           pos := (seekTarget bl c style).toNat },
          Except.ok (seekTarget bl c style).toNat)) ∧
    (seekTarget bl c style < 0 ∨ (U64MOD : Int) ≤ seekTarget bl c style →
      c.seek_impl style = (c, Except.error ErrorKind.invalidInput)) := by
  have hspwf := spwf_startIndex bl hwf
  cases style with
  | fromStart n =>
    simp only [SeekWF] at hstyle
    constructor
    · intro hok
      simp only [CursorData.seek_impl, seekTarget]
      rw [set_pos_resolve (startIndex bl) hspwf c hinv n]
      simp
    · intro hbad
      simp only [seekTarget] at hbad
      rcases hbad with hbad | hbad <;> omega
  | fromEnd off =>
    have hnb : c.num_bytes = remaining bl := num_bytes_eq bl c hinv.1
    simp only [CursorData.seek_impl, CursorData.seek_rel, seekTarget, hnb]
    by_cases hoff : 0 ≤ off
    · simp only [if_pos hoff]
      constructor
      · intro hok
        have hcond : remaining bl + off.toNat < U64MOD := by omega
        simp only [if_pos hcond]
        have harg : remaining bl + off.toNat = ((remaining bl : Int) + off).toNat := by
          omega
        rw [harg, set_pos_resolve (startIndex bl) hspwf c hinv _]
      · intro hbad
        have hcond : ¬ remaining bl + off.toNat < U64MOD := by omega
        simp only [if_neg hcond]
    · simp only [if_neg hoff]
      constructor
      · intro hok
        have hcond : off.natAbs ≤ remaining bl := by omega
        simp only [if_pos hcond]
        have harg : remaining bl - off.natAbs = ((remaining bl : Int) + off).toNat := by
          omega
        rw [harg, set_pos_resolve (startIndex bl) hspwf c hinv _]
      · intro hbad
        have hcond : ¬ off.natAbs ≤ remaining bl := by omega
        simp only [if_neg hcond]
  | current off =>
    simp only [CursorData.seek_impl, CursorData.seek_rel, seekTarget]
    by_cases hoff : 0 ≤ off
    · simp only [if_pos hoff]
      constructor
      · intro hok
        have hcond : c.pos + off.toNat < U64MOD := by omega
        simp only [if_pos hcond]
        have harg : c.pos + off.toNat = ((c.pos : Int) + off).toNat := by omega
        rw [harg, set_pos_resolve (startIndex bl) hspwf c hinv _]
      · intro hbad
        have hcond : ¬ c.pos + off.toNat < U64MOD := by omega
        simp only [if_neg hcond]
    · simp only [if_neg hoff]
      constructor
      · intro hok
        have hcond : off.natAbs ≤ c.pos := by omega
        simp only [if_pos hcond]
        have harg : c.pos - off.natAbs = ((c.pos : Int) + off).toNat := by omega
        rw [harg, set_pos_resolve (startIndex bl) hspwf c hinv _]
      · intro hbad
        have hcond : ¬ off.natAbs ≤ c.pos := by omega
        simp only [if_neg hcond]

/-- Witness for C5: an end-relative seek that would go negative fails and
leaves the cursor untouched. -/
theorem seek_spec_witness :
    (seekTarget [[1, 2]] (CursorData.new [[1, 2]]) (SeekFrom.fromEnd (-5)) < 0 ∨
        (U64MOD : Int) ≤ seekTarget [[1, 2]] (CursorData.new [[1, 2]])
          (SeekFrom.fromEnd (-5))) ∧
      (CursorData.new [[1, 2]]).seek_impl (SeekFrom.fromEnd (-5)) =
        (CursorData.new [[1, 2]], Except.error ErrorKind.invalidInput) := by
  have h := (seek_spec [[1, 2]] (by decide) (CursorData.new [[1, 2]])
    ⟨rfl, by decide⟩ (SeekFrom.fromEnd (-5)) (by decide) (by decide) trivial).2
  refine ⟨by decide, h (by decide)⟩

/-- The error branch of `read_exact_impl`: the shortfall check fires before
`read_impl` is reached, so the state is returned untouched together with the
diagnostic pair. -/
lemma read_exact_error_case (bl : BufList) (c : CursorData)
    (hsp : c.start_pos = startIndex bl) (bufLen : Nat)
    (hlt : remaining bl - c.pos < bufLen) :
    c.read_exact_impl bl bufLen =
      (c, Except.error (ErrorKind.unexpectedEof,
        ⟨remaining bl - c.pos, bufLen⟩)) := by
  have hnb : c.num_bytes = remaining bl := num_bytes_eq bl c hsp
  simp only [CursorData.read_exact_impl, hnb, if_pos hlt]

/-- C6. `read_exact` fails with the unexpected-end-of-data error carrying
`(bytes remaining, bytes requested)` exactly when fewer bytes remain than
requested; otherwise it behaves as `read` and returns precisely the next
`bufLen` bytes of the stream. -/
theorem read_exact_spec (bl : BufList) (hwf : ChunksWF bl) (c : CursorData)
    (hinv : InvC (startIndex bl) c) (bufLen : Nat) :
    (remaining bl - c.pos < bufLen →
      c.read_exact_impl bl bufLen =
        (c, Except.error (ErrorKind.unexpectedEof,
          ⟨remaining bl - c.pos, bufLen⟩))) ∧
    (bufLen ≤ remaining bl - c.pos →
      c.read_exact_impl bl bufLen =
        ((c.read_impl bl bufLen).1,
          Except.ok (((stream bl).drop c.pos).take bufLen)) ∧
      (((stream bl).drop c.pos).take bufLen).length = bufLen) := by
  have hnb : c.num_bytes = remaining bl := num_bytes_eq bl c hinv.1
  have hread := read_impl_spec bl hwf c hinv bufLen
  constructor
  · intro hlt
    exact read_exact_error_case bl c hinv.1 bufLen hlt
  · intro hge
    have hcond : ¬ remaining bl - c.pos < bufLen := by omega
    constructor
    · simp only [CursorData.read_exact_impl, hnb, if_neg hcond]
      rw [hread]
      have hm : min bufLen (remaining bl - c.pos) = bufLen := by omega
      rw [hm]
    · rw [List.length_take, List.length_drop, length_stream]
      omega

/-- Witness for C6: requesting 3 bytes with only 2 remaining fails with the
pair (2, 3). -/
theorem read_exact_spec_witness :
    remaining [[7], [8]] - (CursorData.new [[7], [8]]).pos < 3 ∧
      (CursorData.new [[7], [8]]).read_exact_impl [[7], [8]] 3 =
        (CursorData.new [[7], [8]],
          Except.error (ErrorKind.unexpectedEof, ⟨2, 3⟩)) := by
  have h := (read_exact_spec [[7], [8]] (by decide) (CursorData.new [[7], [8]])
    ⟨rfl, by decide⟩ 3).1
  exact ⟨by decide, by rw [h (by decide)]; decide⟩

end BufListModel

namespace BufListModel

/-- C7 counterexample: at offset `2^64 - 1` (reachable through
`set_position`), `consume(1)` wraps the unchecked `u64` addition to offset
0, while `seek(Current, 1)` fails with the invalid-seek error and leaves the
offset at `2^64 - 1`; the two resulting cursor states differ. -/
theorem consume_seek_counterexample :
    ((CursorData.new [[1]]).set_pos (U64MOD - 1)).consume_impl 1 ≠
      ((((CursorData.new [[1]]).set_pos (U64MOD - 1)).seek_impl
        (SeekFrom.current 1))).1 := by
  decide

/-- C7 (amended). For every amount `n` in the seek delta's range whose
addition to the current offset does not overflow `u64`, `consume(n)` leaves
the cursor in exactly the state `seek(Current, n)` produces — including
amounts that carry the offset past the total length.  (At `u64` overflow the
two disagree: `consume`'s unchecked addition wraps while `seek` fails and
keeps the position.) -/
theorem consume_eq_seek (c : CursorData) (n : Nat) (hn63 : n < 2 ^ 63)
    (hov : c.pos + n < U64MOD) :
    c.consume_impl n = (c.seek_impl (SeekFrom.current (n : Int))).1 := by
  simp only [CursorData.consume_impl, CursorData.seek_impl, CursorData.seek_rel]
  have hmod : (c.pos + n) % U64MOD = c.pos + n := Nat.mod_eq_of_lt hov
  rw [hmod]
  have hcond : (0 : Int) ≤ (n : Int) := Int.natCast_nonneg n
  rw [if_pos hcond]
  have htn : (n : Int).toNat = n := Int.toNat_natCast n
  rw [htn, if_pos hov]

/-- Witness for C7's amended statement: consuming 2 bytes past the end of a
1-byte buffer matches the relative seek. -/
theorem consume_eq_seek_witness :
    2 < 2 ^ 63 ∧ (CursorData.new [[9]]).pos + 2 < U64MOD ∧
      (CursorData.new [[9]]).consume_impl 2 =
        ((CursorData.new [[9]]).seek_impl (SeekFrom.current 2)).1 :=
  ⟨by decide, by decide, consume_eq_seek (CursorData.new [[9]]) 2 (by decide) (by decide)⟩

/-- `advance` succeeds on any in-range amount, drops exactly that many bytes
from the front of the logical stream, and preserves the chunk invariants. -/
lemma advance_spec :
    ∀ (bl : BufList) (amt : Nat), ChunksWF bl → amt ≤ remaining bl →
      ∃ bl2, advance bl amt = some bl2 ∧ stream bl2 = (stream bl).drop amt ∧
        ChunksWF bl2 := by
  intro bl
  induction bl with
  | nil =>
    intro amt hwf hle
    have hz : amt = 0 := by
      simp [remaining] at hle
      omega
    subst hz
    exact ⟨[], rfl, rfl, hwf⟩
  | cons f rest ih =>
    intro amt hwf hle
    have hwf_rest : ChunksWF rest := fun ch hm => hwf ch (List.mem_cons_of_mem f hm)
    have hrem : remaining (f :: rest) = f.length + remaining rest := by
      simp [remaining]
    cases amt with
    | zero =>
      exact ⟨f :: rest, rfl, rfl, hwf⟩
    | succ k =>
      rw [advance]
      by_cases hbig : f.length > k + 1
      · rw [if_pos hbig]
        refine ⟨f.drop (k + 1) :: rest, rfl, ?_, ?_⟩
        · simp only [stream, List.flatten_cons]
          rw [List.drop_append_of_le_length (by omega)]
        · intro ch hm
          rcases List.mem_cons.mp hm with h | h
          · subst h
            intro hcon
            have := List.drop_eq_nil_iff.mp hcon
            omega
          · exact hwf_rest ch h
      · rw [if_neg hbig]
        obtain ⟨bl2, h1, h2, h3⟩ := ih (k + 1 - f.length) hwf_rest (by omega)
        refine ⟨bl2, h1, ?_, h3⟩
        rw [h2]
        simp only [stream, List.flatten_cons]
        rw [List.drop_append_eq_append_drop]
        rw [List.drop_of_length_le (show f.length ≤ k + 1 by omega)]
        simp

/-- `copy_to_bytes` on an in-range request returns the first `len` bytes of
the logical stream and consumes them, preserving the chunk invariants,
whichever path it takes. -/
lemma copy_to_bytes_main (bl : BufList) (hwf : ChunksWF bl) (len : Nat)
    (hlen : len ≤ remaining bl) :
    ∃ bl2, copy_to_bytes bl len = some (bl2, (stream bl).take len) ∧
      stream bl2 = (stream bl).drop len ∧ ChunksWF bl2 := by
  cases bl with
  | nil =>
    have hz : len = 0 := by
      simp [remaining] at hlen
      omega
    subst hz
    exact ⟨[], rfl, rfl, hwf⟩
  | cons f rest =>
    by_cases hfast : len ≤ f.length
    · rw [copy_to_bytes, if_pos hfast]
      have hbytes : f.take len = (stream (f :: rest)).take len := by
        simp only [stream, List.flatten_cons]
        rw [List.take_append_of_le_length hfast]
      refine ⟨_, by rw [hbytes], ?_, ?_⟩
      · by_cases hall : f.length - len = 0
        · rw [if_pos hall]
          have hfl : len = f.length := by omega
          simp only [stream, List.flatten_cons]
          rw [hfl, List.drop_left]
        · rw [if_neg hall]
          simp only [stream, List.flatten_cons]
          rw [List.drop_append_of_le_length hfast]
      · by_cases hall : f.length - len = 0
        · rw [if_pos hall]
          exact fun ch hm => hwf ch (List.mem_cons_of_mem f hm)
        · rw [if_neg hall]
          intro ch hm
          rcases List.mem_cons.mp hm with h | h
          · subst h
            intro hcon
            have := List.drop_eq_nil_iff.mp hcon
            omega
          · exact hwf ch (List.mem_cons_of_mem f h)
    · obtain ⟨bl2, h1, h2, h3⟩ := advance_spec (f :: rest) len hwf hlen
      rw [copy_to_bytes, if_neg hfast, if_pos hlen, h1]
      exact ⟨bl2, rfl, h2, h3⟩

/-- C8. With `len ≤ remaining`, `copy_out(len)` returns exactly the first
`len` bytes of the logical stream and consumes them; the zero-copy
front-chunk fast path is taken precisely when the request fits in the front
chunk (splitting it and popping it when emptied), the allocate-and-copy slow
path otherwise; and concretely, `copy_out(4)` from chunks `["ab", "cde"]`
returns `"abcd"` and leaves the single chunk `"e"`. -/
theorem copy_out_spec (bl : BufList) (hwf : ChunksWF bl) (len : Nat)
    (hlen : len ≤ remaining bl) :
    (∃ bl2, copy_to_bytes bl len = some (bl2, (stream bl).take len) ∧
      stream bl2 = (stream bl).drop len ∧ ChunksWF bl2) ∧
    (∀ f rest, bl = f :: rest → len ≤ f.length →
      copy_to_bytes bl len =
        some ((if f.length - len = 0 then rest else f.drop len :: rest),
          f.take len)) ∧
    copyFastPath bl len =
      (match bl with
        | f :: _ => decide (len ≤ f.length)
        | [] => false) ∧
    copy_to_bytes [[97, 98], [99, 100, 101]] 4 =
      some ([[101]], [97, 98, 99, 100]) := by
  refine ⟨copy_to_bytes_main bl hwf len hlen, ?_, ?_, by decide⟩
  · intro f rest hbl hle
    subst hbl
    rw [copy_to_bytes, if_pos hle]
  · cases bl with
    | nil => rfl
    | cons f rest => rfl

/-- Witness for C8 with a fast-path request inside the front chunk. -/
theorem copy_out_spec_witness :
    ChunksWF [[1, 2, 3]] ∧ 2 ≤ remaining [[1, 2, 3]] ∧
      copy_to_bytes [[1, 2, 3]] 2 = some ([[3]], [1, 2]) := by
  have h := (copy_out_spec [[1, 2, 3]] (by decide) 2 (by decide)).2.1
    [1, 2, 3] [] rfl (by decide)
  exact ⟨by decide, by decide, by rw [h]; rfl⟩

end BufListModel

namespace BufListModel

/-- C9. The container invariants hold after every operation: `push_chunk`
never stores a zero-length chunk (a zero-length input leaves the list — its
chunk count and `remaining()` — unchanged while still handing the chunk back
to the caller), `remaining` is by construction the sum of the stored chunk
lengths, and the consuming operations `advance` and `copy_to_bytes` preserve
the no-empty-chunk invariant, never leaving an emptied chunk at the front. -/
theorem buflist_invariants (bl : BufList) (hwf : ChunksWF bl)
    (data : List Nat) (amt len : Nat)
    (hamt : amt ≤ remaining bl) (hlen : len ≤ remaining bl) :
    ChunksWF (push_chunk bl data).1 ∧
    remaining (push_chunk bl data).1 =
      (((push_chunk bl data).1).map List.length).sum ∧
    (push_chunk bl data).2 = data ∧
    (data = [] → (push_chunk bl data).1 = bl) ∧
    (∃ bl2, advance bl amt = some bl2 ∧ ChunksWF bl2 ∧
      remaining bl2 = (bl2.map List.length).sum) ∧
    (∃ bl3 bs, copy_to_bytes bl len = some (bl3, bs) ∧ ChunksWF bl3 ∧
      remaining bl3 = (bl3.map List.length).sum) := by
  refine ⟨?_, rfl, rfl, ?_, ?_, ?_⟩
  · rw [push_chunk]
    by_cases hdata : data.length > 0
    · simp only [if_pos hdata]
      intro ch hm
      rcases List.mem_append.mp hm with h | h
      · exact hwf ch h
      · have : ch = data := by simpa using h
        subst this
        intro hcon
        rw [hcon] at hdata
        simp at hdata
    · simp only [if_neg hdata]
      exact hwf
  · intro hdata
    rw [push_chunk, hdata]
    simp
  · obtain ⟨bl2, h1, _, h3⟩ := advance_spec bl amt hwf hamt
    exact ⟨bl2, h1, h3, rfl⟩
  · obtain ⟨bl2, h1, _, h3⟩ := copy_to_bytes_main bl hwf len hlen
    exact ⟨bl2, _, h1, h3, rfl⟩

/-- Witness for C9: a zero-length append on a one-chunk buffer, a one-byte
advance and a one-byte copy. -/
theorem buflist_invariants_witness :
    ChunksWF [[4, 5]] ∧ 1 ≤ remaining [[4, 5]] ∧
      (push_chunk [[4, 5]] []).1 = [[4, 5]] ∧
      (push_chunk [[4, 5]] []).2 = [] := by
  have h := buflist_invariants [[4, 5]] (by decide) [] 1 1 (by decide) (by decide)
  exact ⟨by decide, by decide, h.2.2.2.1 rfl, h.2.2.1⟩

/-- The caller-visible effect of `read_exact` on a concrete destination
buffer.  `read_exact_impl` returns on its error path before calling
`read_impl` — the only code that writes into the destination — so on error
the destination keeps its previous contents, and on success the copied
bytes overwrite the front of the destination. -/
def read_exact_buf (c : CursorData) (bl : BufList) (dest : List Nat) :
    CursorData × List Nat × Option (ErrorKind × ReadExactError) :=
  match c.read_exact_impl bl dest.length with
  | (c2, .ok copied) => (c2, copied ++ dest.drop copied.length, none)
  | (c2, .error e) => (c2, dest, some e)

/-- C10. When `read_exact` fails because fewer bytes remain than the
destination holds, it leaves everything untouched: position, chunk index
(the whole cursor state) and the destination buffer's contents are exactly
as before the call — the shortfall is detected before any bytes are
copied. -/
theorem read_exact_error_unchanged (bl : BufList) (hwf : ChunksWF bl)
    (c : CursorData) (hinv : InvC (startIndex bl) c) (dest : List Nat)
    (hshort : remaining bl - c.pos < dest.length) :
    read_exact_buf c bl dest =
      (c, dest, some (ErrorKind.unexpectedEof,
        ⟨remaining bl - c.pos, dest.length⟩)) := by
  have he := read_exact_error_case bl c hinv.1 dest.length hshort
  rw [read_exact_buf, he]

/-- Witness for C10: a 3-byte destination against a 2-byte buffer. -/
theorem read_exact_error_unchanged_witness :
    remaining [[1], [2]] - (CursorData.new [[1], [2]]).pos < 3 ∧
      read_exact_buf (CursorData.new [[1], [2]]) [[1], [2]] [7, 7, 7] =
        (CursorData.new [[1], [2]], [7, 7, 7],
          some (ErrorKind.unexpectedEof, ⟨2, 3⟩)) := by
  have h := read_exact_error_unchanged [[1], [2]] (by decide)
    (CursorData.new [[1], [2]]) ⟨rfl, by decide⟩ [7, 7, 7] (by decide)
  exact ⟨by decide, by rw [h]; decide⟩

end BufListModel
